import Mathlib

/-!  Formal model of the simulated-annealing Sudoku solver in
`Sudoku.Recuit/Resources/Recuit.py`: block geometry, the error
function, the randomized block-consistent initializer, the neighbor
move, the initial-temperature estimator and the annealing loop,
together with correctness theorems about them.  Randomness is made
explicit: every random draw of the Python code becomes an oracle
parameter, and theorems quantify over all outcomes. -/

namespace Recuit

/-- A Sudoku grid: cell values indexed by row and column.
Only indices below 9 are meaningful. -/
abbrev Grid := ℕ → ℕ → ℕ

/-- Build a grid from a list of rows (missing entries default to 0). -/
def ofRows (l : List (List ℕ)) : Grid := fun i j => (l.getD i []).getD j 0

/-- The digits 1..9 (the value array `np.arange(1, 10)` before shuffling). -/
def digits : List ℕ := [1, 2, 3, 4, 5, 6, 7, 8, 9]

/-- All 81 cell coordinates in row-major order (the traversal order of
the double loop in `compute_error`, and of `np.argwhere`). -/
def all_cells : List (ℕ × ℕ) :=
  (List.range 9).flatMap (fun i => (List.range 9).map (fun j => (i, j)))

/-- `blocks_index` of the source: for each `row < 9` the 3×3 block whose
rows start at `3 * (row % 3)` and whose columns start at `3 * (row / 3)`. -/
def blocks_index : List (List (ℕ × ℕ)) :=
  (List.range 9).map (fun row =>
    (List.range 3).flatMap (fun dx =>
      (List.range 3).map (fun dy => (3 * (row % 3) + dx, 3 * (row / 3) + dy))))

/-- One step of the double loop of `Solver.compute_error`: the state is
the error count so far and, for every row and column index, the set of
values already seen there (modelled as a list, membership being all that
is ever used). -/
def ce_step (m : Grid) (acc : ℕ × (ℕ → List ℕ) × (ℕ → List ℕ)) (p : ℕ × ℕ) :
    ℕ × (ℕ → List ℕ) × (ℕ → List ℕ) :=
  (acc.1 + ((if m p.1 p.2 ∈ acc.2.1 p.1 then 1 else 0) +
            (if m p.1 p.2 ∈ acc.2.2 p.2 then 1 else 0)),
   fun i => if i = p.1 then m p.1 p.2 :: acc.2.1 p.1 else acc.2.1 i,
   fun j => if j = p.2 then m p.1 p.2 :: acc.2.2 p.2 else acc.2.2 j)

/-- `Solver.compute_error`: scan the 81 cells row-major, charging one
error each time a value has already been seen in its row, and one each
time it has already been seen in its column. -/
def compute_error (m : Grid) : ℕ :=
  (all_cells.foldl (ce_step m) (0, fun _ => [], fun _ => [])).1

/-- Error count of a single scan of a value list against a seen-set. -/
def scan_err : List ℕ → List ℕ → ℕ
  | [], _ => 0
  | v :: l, seen => (if v ∈ seen then 1 else 0) + scan_err l (v :: seen)

/-- The row-contributions of the `compute_error` scan. -/
def row_err (m : Grid) : List (ℕ × ℕ) → (ℕ → List ℕ) → ℕ
  | [], _ => 0
  | p :: L, rows =>
      (if m p.1 p.2 ∈ rows p.1 then 1 else 0) +
        row_err m L (fun i => if i = p.1 then m p.1 p.2 :: rows p.1 else rows i)

/-- The column-contributions of the `compute_error` scan. -/
def col_err (m : Grid) : List (ℕ × ℕ) → (ℕ → List ℕ) → ℕ
  | [], _ => 0
  | p :: L, cols =>
      (if m p.1 p.2 ∈ cols p.2 then 1 else 0) +
        col_err m L (fun j => if j = p.2 then m p.1 p.2 :: cols p.2 else cols j)

/-- The values of row `i` of a grid. -/
def row_vals (m : Grid) (i : ℕ) : List ℕ := (List.range 9).map (fun j => m i j)

/-- The values of column `j` of a grid. -/
def col_vals (m : Grid) (j : ℕ) : List ℕ := (List.range 9).map (fun i => m i j)

theorem ce_foldl_fst (m : Grid) (L : List (ℕ × ℕ)) :
    ∀ n rows cols, (L.foldl (ce_step m) (n, rows, cols)).1
      = n + (L.foldl (ce_step m) (0, rows, cols)).1 := by
  induction L with
  | nil => intro n rows cols; simp
  | cons p L ih =>
      intro n rows cols
      simp only [List.foldl_cons, ce_step]
      rw [ih, ih ((0 : ℕ) + _)]
      omega

theorem ce_foldl_split (m : Grid) (L : List (ℕ × ℕ)) :
    ∀ rows cols, (L.foldl (ce_step m) (0, rows, cols)).1
      = row_err m L rows + col_err m L cols := by
  induction L with
  | nil => intro rows cols; simp [row_err, col_err]
  | cons p L ih =>
      intro rows cols
      simp only [List.foldl_cons, ce_step]
      rw [ce_foldl_fst, ih]
      simp only [row_err, col_err]
      omega

/-- The row seen-sets after processing a list of cells. -/
def rows_after (m : Grid) : List (ℕ × ℕ) → (ℕ → List ℕ) → (ℕ → List ℕ)
  | [], rows => rows
  | p :: L, rows =>
      rows_after m L (fun i => if i = p.1 then m p.1 p.2 :: rows p.1 else rows i)

theorem row_err_append (m : Grid) (A : List (ℕ × ℕ)) :
    ∀ (B : List (ℕ × ℕ)) (rows : ℕ → List ℕ),
      row_err m (A ++ B) rows = row_err m A rows + row_err m B (rows_after m A rows) := by
  induction A with
  | nil => intro B rows; simp [row_err, rows_after]
  | cons p A ih =>
      intro B rows
      simp only [List.cons_append, row_err, rows_after, List.append_eq]
      rw [ih]
      omega

theorem row_err_same_row (m : Grid) (i : ℕ) :
    ∀ (L : List (ℕ × ℕ)), (∀ p ∈ L, p.1 = i) → ∀ rows,
      row_err m L rows = scan_err (L.map (fun p => m p.1 p.2)) (rows i) := by
  intro L
  induction L with
  | nil => intro _ rows; simp [row_err, scan_err]
  | cons p L ih =>
      intro h rows
      have hp : p.1 = i := h p (List.mem_cons_self p L)
      simp only [row_err, List.map_cons, scan_err, hp, if_pos rfl]
      rw [ih (fun q hq => h q (List.mem_cons_of_mem p hq))]
      simp [hp]

theorem rows_after_other (m : Grid) (i : ℕ) :
    ∀ (L : List (ℕ × ℕ)), (∀ p ∈ L, p.1 ≠ i) → ∀ rows,
      rows_after m L rows i = rows i := by
  intro L
  induction L with
  | nil => intro _ rows; simp [rows_after]
  | cons p L ih =>
      intro h rows
      have hp : p.1 ≠ i := h p (List.mem_cons_self p L)
      simp only [rows_after]
      rw [ih (fun q hq => h q (List.mem_cons_of_mem p hq))]
      exact if_neg (fun h' => hp h'.symm)

theorem row_err_rows (m : Grid) :
    ∀ (I : List ℕ), I.Nodup → ∀ rows,
      row_err m (I.flatMap (fun i => (List.range 9).map (fun j => (i, j)))) rows
        = (I.map (fun i => scan_err (row_vals m i) (rows i))).sum := by
  intro I
  induction I with
  | nil => intro _ rows; simp [row_err]
  | cons i I ih =>
      intro hnd rows
      have hI : I.Nodup := hnd.of_cons
      have hni : i ∉ I := (List.nodup_cons.1 hnd).1
      rw [List.flatMap_cons, row_err_append]
      have hmem1 : ∀ p ∈ (List.range 9).map (fun j => (i, j)), p.1 = i := by
        intro p hp
        rcases List.mem_map.1 hp with ⟨j, _, rfl⟩
        rfl
      have h1 : row_err m ((List.range 9).map (fun j => (i, j))) rows
          = scan_err (row_vals m i) (rows i) := by
        rw [row_err_same_row m i _ hmem1, List.map_map]
        rfl
      have h2 : ∀ i' ∈ I,
          scan_err (row_vals m i')
            (rows_after m ((List.range 9).map (fun j => (i, j))) rows i')
          = scan_err (row_vals m i') (rows i') := by
        intro i' hi'
        have hne : i' ≠ i := fun h => hni (h ▸ hi')
        rw [rows_after_other m i' _ (by
          intro p hp
          rcases List.mem_map.1 hp with ⟨j, _, rfl⟩
          exact fun h => hne h.symm)]
      rw [h1, ih hI, List.map_cons, List.sum_cons, List.map_congr_left h2]

theorem col_err_sum_update (j0 : ℕ) (d : ℕ) (F G : ℕ → ℕ) :
    ∀ (l : List ℕ), l.Nodup → j0 ∈ l → F j0 = d + G j0 → (∀ j ∈ l, j ≠ j0 → F j = G j) →
      (l.map F).sum = d + (l.map G).sum := by
  intro l
  induction l with
  | nil => intro _ h; simp at h
  | cons x l ih =>
      intro hnd hmem h0 h
      rcases List.mem_cons.1 hmem with hx | hx
      · subst hx
        have : ∀ j ∈ l, F j = G j := by
          intro j hj
          exact h j (List.mem_cons_of_mem _ hj) (fun hjx => (List.nodup_cons.1 hnd).1 (hjx ▸ hj))
        simp only [List.map_cons, List.sum_cons, h0, List.map_congr_left this]
        omega
      · have hxj : x ≠ j0 := fun hh => (List.nodup_cons.1 hnd).1 (hh ▸ hx)
        simp only [List.map_cons, List.sum_cons]
        rw [h x (List.mem_cons_self _ _) hxj,
          ih (List.nodup_cons.1 hnd).2 hx h0 (fun j hj => h j (List.mem_cons_of_mem _ hj))]
        omega

theorem col_err_cols (m : Grid) :
    ∀ (L : List (ℕ × ℕ)), (∀ p ∈ L, p.2 < 9) → ∀ cols,
      col_err m L cols
        = ((List.range 9).map (fun j =>
            scan_err ((L.filter (fun p => p.2 = j)).map (fun p => m p.1 p.2)) (cols j))).sum := by
  intro L
  induction L with
  | nil => intro _ cols; simp [col_err, scan_err]
  | cons p L ih =>
      intro hw cols
      have hp9 : p.2 < 9 := hw p (List.mem_cons_self p L)
      simp only [col_err]
      rw [ih (fun q hq => hw q (List.mem_cons_of_mem p hq))]
      have hmem : p.2 ∈ List.range 9 := List.mem_range.2 hp9
      rw [eq_comm]
      apply col_err_sum_update p.2 _ _ _ (List.range 9) (List.nodup_range 9) hmem
      · have : (List.filter (fun q => q.2 = p.2) (p :: L)) = p :: L.filter (fun q => q.2 = p.2) := by
          simp [List.filter_cons]
        rw [this, List.map_cons, scan_err]
        simp
      · intro j hj hjp
        have hpj : ¬ (p.2 = j) := fun h => hjp h.symm
        have hflt : (List.filter (fun q => q.2 = j) (p :: L)) = L.filter (fun q => q.2 = j) := by
          simp [List.filter_cons, hpj]
        rw [hflt]
        congr 1
        exact (if_neg hjp).symm

theorem mem_all_cells (p : ℕ × ℕ) : p ∈ all_cells ↔ p.1 < 9 ∧ p.2 < 9 := by
  constructor
  · intro hp
    rcases List.mem_flatMap.1 hp with ⟨i, hi, hp2⟩
    rcases List.mem_map.1 hp2 with ⟨j, hj, rfl⟩
    exact ⟨List.mem_range.1 hi, List.mem_range.1 hj⟩
  · rintro ⟨h1, h2⟩
    exact List.mem_flatMap.2
      ⟨p.1, List.mem_range.2 h1, List.mem_map.2 ⟨p.2, List.mem_range.2 h2, rfl⟩⟩

set_option maxHeartbeats 1600000 in
theorem all_cells_filter_col :
    ∀ j < 9, all_cells.filter (fun p => p.2 = j) = (List.range 9).map (fun i => (i, j)) := by
  decide

theorem compute_error_eq (m : Grid) :
    compute_error m
      = ((List.range 9).map (fun i => scan_err (row_vals m i) [])).sum
        + ((List.range 9).map (fun j => scan_err (col_vals m j) [])).sum := by
  have h1 : compute_error m
      = row_err m all_cells (fun _ => []) + col_err m all_cells (fun _ => []) :=
    ce_foldl_split m all_cells (fun _ => []) (fun _ => [])
  have h2 : row_err m all_cells (fun _ => [])
      = ((List.range 9).map (fun i => scan_err (row_vals m i) [])).sum :=
    row_err_rows m (List.range 9) (List.nodup_range 9) (fun _ => [])
  have h3 : col_err m all_cells (fun _ => [])
      = ((List.range 9).map (fun j =>
          scan_err ((all_cells.filter (fun p => p.2 = j)).map (fun p => m p.1 p.2)) [])).sum :=
    col_err_cols m all_cells (fun p hp => ((mem_all_cells p).1 hp).2) (fun _ => [])
  have h4 : ∀ j ∈ List.range 9,
      scan_err ((all_cells.filter (fun p => p.2 = j)).map (fun p => m p.1 p.2)) []
        = scan_err (col_vals m j) [] := by
    intro j hj
    rw [all_cells_filter_col j (List.mem_range.1 hj), List.map_map]
    rfl
  rw [h1, h2, h3, List.map_congr_left h4]

theorem scan_err_eq_zero (l : List ℕ) :
    ∀ seen, (scan_err l seen = 0 ↔ l.Nodup ∧ ∀ x ∈ l, x ∉ seen) := by
  induction l with
  | nil => intro seen; simp [scan_err]
  | cons v l ih =>
      intro seen
      simp only [scan_err, Nat.add_eq_zero, ih, List.nodup_cons]
      constructor
      · rintro ⟨h1, h2, h3⟩
        have hv : v ∉ seen := by by_contra h; simp [h] at h1
        refine ⟨⟨fun hvl => (h3 v hvl) (List.mem_cons_self _ _), h2⟩, ?_⟩
        intro x hx
        rcases List.mem_cons.1 hx with rfl | hx'
        · exact hv
        · exact fun hxs => (h3 x hx') (List.mem_cons_of_mem _ hxs)
      · rintro ⟨⟨hvl, h2⟩, h3⟩
        have hv : v ∉ seen := h3 v (List.mem_cons_self _ _)
        refine ⟨by simp [hv], h2, ?_⟩
        intro x hx
        simp only [List.mem_cons, not_or]
        exact ⟨fun h => hvl (h ▸ hx), fun h => (h3 x (List.mem_cons_of_mem _ hx)) h⟩

theorem compute_error_eq_zero_iff (m : Grid) :
    compute_error m = 0
      ↔ (∀ i < 9, (row_vals m i).Nodup) ∧ (∀ j < 9, (col_vals m j).Nodup) := by
  rw [compute_error_eq, Nat.add_eq_zero, List.sum_eq_zero_iff, List.sum_eq_zero_iff]
  constructor
  · rintro ⟨h1, h2⟩
    constructor
    · intro i hi
      have := h1 _ (List.mem_map.2 ⟨i, List.mem_range.2 hi, rfl⟩)
      exact ((scan_err_eq_zero _ []).1 this).1
    · intro j hj
      have := h2 _ (List.mem_map.2 ⟨j, List.mem_range.2 hj, rfl⟩)
      exact ((scan_err_eq_zero _ []).1 this).1
  · rintro ⟨h1, h2⟩
    constructor
    · intro x hx
      rcases List.mem_map.1 hx with ⟨i, hi, rfl⟩
      exact (scan_err_eq_zero _ []).2 ⟨h1 i (List.mem_range.1 hi), by simp⟩
    · intro x hx
      rcases List.mem_map.1 hx with ⟨j, hj, rfl⟩
      exact (scan_err_eq_zero _ []).2 ⟨h2 j (List.mem_range.1 hj), by simp⟩

/-! ### Block geometry -/

theorem blocks_len : ∀ B ∈ blocks_index, B.length = 9 := by decide

theorem blocks_nodup : ∀ B ∈ blocks_index, B.Nodup := by decide

theorem blocks_disjoint :
    List.Pairwise (fun A B => ∀ p ∈ A, p ∉ B) blocks_index := by decide

theorem blocks_cells_lt : ∀ B ∈ blocks_index, ∀ p ∈ B, p.1 < 9 ∧ p.2 < 9 := by decide

theorem cell_mem_block : ∀ i < 9, ∀ j < 9, ∃ B ∈ blocks_index, (i, j) ∈ B := by decide

set_option maxHeartbeats 800000 in
theorem blocks_join_perm : List.Perm blocks_index.flatten all_cells := by decide

theorem blocks_shape :
    ∀ B ∈ blocks_index, ∃ r < 3, ∃ c < 3,
      B = (List.range 3).flatMap (fun dx =>
        (List.range 3).map (fun dy => (3 * r + dx, 3 * c + dy))) := by
  decide

/-- The values a grid puts on a list of cells (a block, usually). -/
def block_vals (g : Grid) (B : List (ℕ × ℕ)) : List ℕ := B.map (fun b => g b.1 b.2)

/-- The values of the pre-filled cells of a block of the puzzle. -/
def prefilled_vals (sudoku : Grid) (B : List (ℕ × ℕ)) : List ℕ :=
  (B.filter (fun b => sudoku b.1 b.2 ≠ 0)).map (fun b => sudoku b.1 b.2)

theorem mem_digits (v : ℕ) : v ∈ digits ↔ 1 ≤ v ∧ v ≤ 9 := by
  simp only [digits, List.mem_cons, List.not_mem_nil, or_false]
  omega

theorem digits_nodup : digits.Nodup := by decide

/-- A list of 9 distinct values among 1..9 is a permutation of the digits. -/
theorem perm_digits_of_nodup (l : List ℕ) (hn : l.Nodup) (hlen : l.length = 9)
    (hsub : ∀ x ∈ l, x ∈ digits) : List.Perm l digits :=
  (hn.subperm hsub).perm_of_length_le (by simp [digits, hlen])

/-- A valid (completed) Sudoku solution: every cell holds a digit 1..9 and
every row, column and 3×3 block contains each of 1..9 exactly once. -/
def valid_solution (g : Grid) : Prop :=
  (∀ i < 9, ∀ j < 9, 1 ≤ g i j ∧ g i j ≤ 9) ∧
  (∀ i < 9, List.Perm (row_vals g i) digits) ∧
  (∀ j < 9, List.Perm (col_vals g j) digits) ∧
  (∀ B ∈ blocks_index, List.Perm (block_vals g B) digits)

/-- The per-block permutation invariant established by the initializer and
preserved by the neighbor move. -/
def blocks_valid (g : Grid) : Prop :=
  ∀ B ∈ blocks_index, List.Perm (block_vals g B) digits

theorem blocks_valid_bounds (g : Grid) (hb : blocks_valid g) :
    ∀ i < 9, ∀ j < 9, 1 ≤ g i j ∧ g i j ≤ 9 := by
  intro i hi j hj
  rcases cell_mem_block i hi j hj with ⟨B, hB, hmem⟩
  have : g i j ∈ block_vals g B := List.mem_map.2 ⟨(i, j), hmem, rfl⟩
  exact (mem_digits _).1 (((hb B hB).mem_iff).1 this)

theorem valid_of_blocks_error_zero (g : Grid) (hb : blocks_valid g)
    (h0 : compute_error g = 0) : valid_solution g := by
  have hbounds := blocks_valid_bounds g hb
  rcases (compute_error_eq_zero_iff g).1 h0 with ⟨hrow, hcol⟩
  refine ⟨hbounds, ?_, ?_, hb⟩
  · intro i hi
    refine perm_digits_of_nodup _ (hrow i hi) (by simp [row_vals]) ?_
    intro x hx
    rcases List.mem_map.1 hx with ⟨j, hj, rfl⟩
    exact (mem_digits _).2 (hbounds i hi j (List.mem_range.1 hj))
  · intro j hj
    refine perm_digits_of_nodup _ (hcol j hj) (by simp [col_vals]) ?_
    intro x hx
    rcases List.mem_map.1 hx with ⟨i, hi, rfl⟩
    exact (mem_digits _).2 (hbounds i (List.mem_range.1 hi) j hj)

theorem error_zero_of_valid (g : Grid) (hv : valid_solution g) :
    compute_error g = 0 := by
  rcases hv with ⟨_, hrow, hcol, _⟩
  refine (compute_error_eq_zero_iff g).2 ⟨?_, ?_⟩
  · exact fun i hi => (hrow i hi).nodup_iff.2 digits_nodup
  · exact fun j hj => (hcol j hj).nodup_iff.2 digits_nodup

/-- C8: `blocks_index` takes no input and deterministically returns 9 blocks
of 9 coordinates each that are pairwise disjoint and together cover all 81
cells of the 9×9 grid exactly once, each block being a contiguous 3×3 region
(rows `3r..3r+2`, columns `3c..3c+2`). -/
theorem C8_blocks_index_partition :
    blocks_index.length = 9 ∧
    (∀ B ∈ blocks_index, B.length = 9) ∧
    List.Perm blocks_index.flatten all_cells ∧
    List.Pairwise (fun A B => ∀ p ∈ A, p ∉ B) blocks_index ∧
    (∀ B ∈ blocks_index, ∃ r < 3, ∃ c < 3,
      B = (List.range 3).flatMap (fun dx =>
        (List.range 3).map (fun dy => (3 * r + dx, 3 * c + dy)))) :=
  ⟨rfl, blocks_len, blocks_join_perm, blocks_disjoint, blocks_shape⟩

theorem C8_blocks_index_partition_witness :
    (blocks_index.getD 0 []).length = 9 ∧
    (∃ r < 3, ∃ c < 3, blocks_index.getD 0 []
      = (List.range 3).flatMap (fun dx =>
          (List.range 3).map (fun dy => (3 * r + dx, 3 * c + dy)))) :=
  ⟨C8_blocks_index_partition.2.1 _ (by decide),
   C8_blocks_index_partition.2.2.2.2 _ (by decide)⟩

/-- C2: on fully-filled grids, `compute_error` is zero exactly when no row
and no column holds two equal entries; on block-valid working grids, the
score is zero exactly when the grid is a valid Sudoku solution. -/
theorem C2_error_characterization :
    (∀ m : Grid, (∀ i < 9, ∀ j < 9, m i j ≠ 0) →
      (compute_error m = 0
        ↔ (∀ i < 9, (row_vals m i).Nodup) ∧ (∀ j < 9, (col_vals m j).Nodup))) ∧
    (∀ m : Grid, blocks_valid m → (compute_error m = 0 ↔ valid_solution m)) := by
  constructor
  · intro m _
    exact compute_error_eq_zero_iff m
  · intro m hb
    exact ⟨valid_of_blocks_error_zero m hb, error_zero_of_valid m⟩

/-! ### Randomized block-consistent initializer (`Solver.random_matrix`)

The per-iteration shuffles of `np.random.shuffle` are supplied by an
oracle `sh : ℕ → List ℕ`; theorems assume each `sh k` is a permutation
of `[1..9]`, which is exactly what the library guarantees. -/

/-- Point update of a grid at one cell. -/
def updg (g : Grid) (p : ℕ × ℕ) (v : ℕ) : Grid :=
  fun i j => if i = p.1 ∧ j = p.2 then v else g i j

/-- First loop of `random_matrix`: drop from the candidate list the value of
every pre-filled cell of the block (`L = L[L != sudoku[b]]`). -/
def remove_prefilled (sudoku : Grid) : List (ℕ × ℕ) → List ℕ → List ℕ
  | [], L => L
  | b :: bs, L =>
      if sudoku b.1 b.2 ≠ 0 then
        remove_prefilled sudoku bs (L.filter (fun x => x ≠ sudoku b.1 b.2))
      else remove_prefilled sudoku bs L

/-- Second loop of `random_matrix`: fill each still-empty cell of the block
with the head of the remaining candidate list. -/
def fill_cells : Grid → List (ℕ × ℕ) → List ℕ → Grid × List ℕ
  | result, [], L => (result, L)
  | result, b :: bs, L =>
      if L.length ≠ 0 ∧ result b.1 b.2 = 0 then
        fill_cells (updg result b (L.headD 0)) bs L.tail
      else fill_cells result bs L

/-- The block loop of `random_matrix`, consuming one shuffle per block. -/
def rm_aux (sudoku : Grid) : List (List (ℕ × ℕ)) → (ℕ → List ℕ) → Grid → Grid
  | [], _, result => result
  | B :: Bs, sh, result =>
      rm_aux sudoku Bs (fun n => sh (n + 1))
        (fill_cells result B (remove_prefilled sudoku B (sh 0))).1

/-- `Solver.random_matrix`: start from a copy of the puzzle and fill every
block with the missing digits in shuffled order. -/
def random_matrix (sudoku : Grid) (sh : ℕ → List ℕ) : Grid :=
  rm_aux sudoku blocks_index sh sudoku

theorem fill_cells_frame (bs : List (ℕ × ℕ)) :
    ∀ (result : Grid) (L : List ℕ) (i j : ℕ), (i, j) ∉ bs →
      (fill_cells result bs L).1 i j = result i j := by
  induction bs with
  | nil => intro result L i j _; rfl
  | cons b bs ih =>
      intro result L i j h
      have hnotb : (i, j) ≠ b := fun hh => h (hh ▸ List.mem_cons_self b bs)
      have hnot : (i, j) ∉ bs := fun hh => h (List.mem_cons_of_mem b hh)
      show (if L.length ≠ 0 ∧ result b.1 b.2 = 0 then _ else _ : Grid × List ℕ).1 i j = _
      split
      · rw [ih _ _ _ _ hnot]
        show (if i = b.1 ∧ j = b.2 then _ else result i j) = result i j
        rw [if_neg (fun hh => hnotb (Prod.ext hh.1 hh.2))]
      · exact ih _ _ _ _ hnot

theorem fill_cells_keep (bs : List (ℕ × ℕ)) :
    ∀ (result : Grid) (L : List ℕ) (i j : ℕ), result i j ≠ 0 →
      (fill_cells result bs L).1 i j = result i j := by
  induction bs with
  | nil => intro result L i j _; rfl
  | cons b bs ih =>
      intro result L i j h
      show (if L.length ≠ 0 ∧ result b.1 b.2 = 0 then _ else _ : Grid × List ℕ).1 i j = _
      split
      · rename_i hcond
        have hnotb : ¬(i = b.1 ∧ j = b.2) := by
          rintro ⟨rfl, rfl⟩; exact h hcond.2
        have hupd : updg result b (L.headD 0) i j = result i j := if_neg hnotb
        rw [ih _ _ _ _ (by rw [hupd]; exact h), hupd]
      · exact ih _ _ _ _ h

theorem fill_cells_perm (bs : List (ℕ × ℕ)) :
    ∀ (result : Grid) (L : List ℕ), bs.Nodup →
      L.length = bs.countP (fun b => result b.1 b.2 = 0) →
      List.Perm (block_vals (fill_cells result bs L).1 bs)
        ((bs.filter (fun b => result b.1 b.2 ≠ 0)).map (fun b => result b.1 b.2) ++ L) := by
  induction bs with
  | nil =>
      intro result L _ hlen
      have : L = [] := List.length_eq_zero.1 (by simpa using hlen)
      simp [block_vals, this]
  | cons b bs ih =>
      intro result L hnd hlen
      have hbnot : b ∉ bs := (List.nodup_cons.1 hnd).1
      have hbs : bs.Nodup := (List.nodup_cons.1 hnd).2
      by_cases hb0 : result b.1 b.2 = 0
      · have hcount : (b :: bs).countP (fun q => result q.1 q.2 = 0)
            = bs.countP (fun q => result q.1 q.2 = 0) + 1 := by
          rw [List.countP_cons]
          simp [hb0]
        rw [hcount] at hlen
        rcases L with _ | ⟨v, L'⟩
        · simp at hlen
        · have hcond : (v :: L').length ≠ 0 ∧ result b.1 b.2 = 0 := by
            simp [hb0]
          have hstep : fill_cells result (b :: bs) (v :: L')
              = fill_cells (updg result b v) bs L' := by
            show (if (v :: L').length ≠ 0 ∧ result b.1 b.2 = 0 then _ else _) = _
            rw [if_pos hcond]
            rfl
          have hagree : ∀ q ∈ bs, updg result b v q.1 q.2 = result q.1 q.2 := by
            intro q hq
            have : q ≠ b := fun hh => hbnot (hh ▸ hq)
            exact if_neg (fun hh => this (Prod.ext hh.1 hh.2))
          have hcnt' : L'.length = bs.countP (fun q => (updg result b v) q.1 q.2 = 0) := by
            rw [List.countP_congr (fun q hq => by rw [hagree q hq])]
            simpa using hlen
          have hperm := ih (updg result b v) L' hbs hcnt'
          have hval : (fill_cells (updg result b v) bs L').1 b.1 b.2 = v := by
            rw [fill_cells_frame bs _ _ _ _ (by simpa using hbnot)]
            show (if b.1 = b.1 ∧ b.2 = b.2 then v else _) = v
            rw [if_pos ⟨rfl, rfl⟩]
          have hfilter : (b :: bs).filter (fun q => result q.1 q.2 ≠ 0)
              = bs.filter (fun q => result q.1 q.2 ≠ 0) := by
            simp [List.filter_cons, hb0]
          have hfilter2 : bs.filter (fun q => (updg result b v) q.1 q.2 ≠ 0)
              = bs.filter (fun q => result q.1 q.2 ≠ 0) :=
            List.filter_congr (fun q hq => by rw [hagree q hq])
          have hmap2 : (bs.filter (fun q => (updg result b v) q.1 q.2 ≠ 0)).map
                (fun q => (updg result b v) q.1 q.2)
              = (bs.filter (fun q => result q.1 q.2 ≠ 0)).map (fun q => result q.1 q.2) := by
            rw [hfilter2]
            exact List.map_congr_left
              (fun q hq => hagree q (List.mem_of_mem_filter hq))
          rw [hstep, hfilter]
          show List.Perm ((fill_cells (updg result b v) bs L').1 b.1 b.2
              :: block_vals (fill_cells (updg result b v) bs L').1 bs) _
          rw [hval]
          rw [hmap2] at hperm
          exact List.Perm.trans (List.Perm.cons v hperm) List.perm_middle.symm
      · have hcount : (b :: bs).countP (fun q => result q.1 q.2 = 0)
            = bs.countP (fun q => result q.1 q.2 = 0) := by
          rw [List.countP_cons]
          simp [hb0]
        rw [hcount] at hlen
        have hstep : fill_cells result (b :: bs) L = fill_cells result bs L := by
          show (if L.length ≠ 0 ∧ result b.1 b.2 = 0 then _ else _) = _
          rw [if_neg (fun hh => hb0 hh.2)]
        have hperm := ih result L hbs hlen
        have hval : (fill_cells result bs L).1 b.1 b.2 = result b.1 b.2 :=
          fill_cells_keep bs result L b.1 b.2 hb0
        have hfilter : (b :: bs).filter (fun q => result q.1 q.2 ≠ 0)
            = b :: bs.filter (fun q => result q.1 q.2 ≠ 0) := by
          simp [List.filter_cons, hb0]
        rw [hstep, hfilter]
        show List.Perm ((fill_cells result bs L).1 b.1 b.2
            :: block_vals (fill_cells result bs L).1 bs) _
        rw [hval]
        exact List.Perm.cons _ hperm

theorem remove_prefilled_eq (sudoku : Grid) :
    ∀ (bs : List (ℕ × ℕ)) (L : List ℕ),
      remove_prefilled sudoku bs L
        = (prefilled_vals sudoku bs).foldl (fun acc v => acc.filter (fun x => x ≠ v)) L := by
  intro bs
  induction bs with
  | nil => intro L; rfl
  | cons b bs ih =>
      intro L
      by_cases h : sudoku b.1 b.2 ≠ 0
      · have h1 : remove_prefilled sudoku (b :: bs) L
            = remove_prefilled sudoku bs (L.filter (fun x => x ≠ sudoku b.1 b.2)) := by
          show (if sudoku b.1 b.2 ≠ 0 then _ else _) = _
          rw [if_pos h]
        have h2 : prefilled_vals sudoku (b :: bs)
            = sudoku b.1 b.2 :: prefilled_vals sudoku bs := by
          simp [prefilled_vals, List.filter_cons, h]
        rw [h1, h2, ih]
        rfl
      · have h1 : remove_prefilled sudoku (b :: bs) L = remove_prefilled sudoku bs L := by
          show (if sudoku b.1 b.2 ≠ 0 then _ else _) = _
          rw [if_neg h]
        have h2 : prefilled_vals sudoku (b :: bs) = prefilled_vals sudoku bs := by
          simp [prefilled_vals, List.filter_cons, h]
        rw [h1, h2, ih]

theorem filter_ne_perm (v : ℕ) :
    ∀ (L : List ℕ), L.Nodup → v ∈ L →
      List.Perm L (v :: L.filter (fun x => x ≠ v)) := by
  intro L
  induction L with
  | nil => intro _ hv; cases hv
  | cons a L ih =>
      intro hnd hv
      rcases List.mem_cons.1 hv with rfl | hv'
      · have hnl : v ∉ L := (List.nodup_cons.1 hnd).1
        have hfa : (v :: L).filter (fun x => x ≠ v) = L.filter (fun x => x ≠ v) := by
          simp [List.filter_cons]
        have hfl : L.filter (fun x => x ≠ v) = L :=
          List.filter_eq_self.2
            (fun b hb => decide_eq_true (fun h : b = v => hnl (h ▸ hb)))
        rw [hfa, hfl]
      · have hav : a ≠ v := fun h => (List.nodup_cons.1 hnd).1 (h ▸ hv')
        have hfa : (a :: L).filter (fun x => x ≠ v) = a :: L.filter (fun x => x ≠ v) := by
          simp [List.filter_cons, hav]
        rw [hfa]
        exact List.Perm.trans
          (List.Perm.cons a (ih (List.nodup_cons.1 hnd).2 hv'))
          (List.Perm.swap v a _)

theorem remove_foldl_perm :
    ∀ (vals : List ℕ) (L : List ℕ), L.Nodup → vals.Nodup → (∀ v ∈ vals, v ∈ L) →
      List.Perm (vals ++ vals.foldl (fun acc v => acc.filter (fun x => x ≠ v)) L) L := by
  intro vals
  induction vals with
  | nil => intro L _ _ _; simp
  | cons v vs ih =>
      intro L hL hvals hsub
      have hv : v ∈ L := hsub v (List.mem_cons_self _ _)
      have hL' : (L.filter (fun x => x ≠ v)).Nodup := hL.filter _
      have hsub' : ∀ w ∈ vs, w ∈ L.filter (fun x => x ≠ v) := by
        intro w hw
        refine List.mem_filter.2 ⟨hsub w (List.mem_cons_of_mem _ hw),
          decide_eq_true (fun h : w = v => ?_)⟩
        exact (List.nodup_cons.1 hvals).1 (h ▸ hw)
      have ihh := ih _ hL' (List.nodup_cons.1 hvals).2 hsub'
      show List.Perm (v :: (vs ++ _)) L
      exact List.Perm.trans (List.Perm.cons v ihh) (filter_ne_perm v L hL hv).symm

theorem countP_zero_add (g : Grid) :
    ∀ B : List (ℕ × ℕ),
      B.countP (fun b => g b.1 b.2 = 0) + (B.filter (fun b => g b.1 b.2 ≠ 0)).length
        = B.length := by
  intro B
  induction B with
  | nil => rfl
  | cons b bs ih =>
      by_cases h : g b.1 b.2 = 0 <;>
        · simp only [List.countP_cons, List.filter_cons, h]
          simp [h, ← ih]
          omega

theorem fill_block_spec (sudoku result : Grid) (B : List (ℕ × ℕ)) (Lsh : List ℕ)
    (hB : B.Nodup) (hlen : B.length = 9)
    (hag : ∀ b ∈ B, result b.1 b.2 = sudoku b.1 b.2)
    (hwf : ∀ b ∈ B, sudoku b.1 b.2 ≤ 9)
    (hnd : (prefilled_vals sudoku B).Nodup)
    (hsh : List.Perm Lsh digits) :
    List.Perm
      (block_vals (fill_cells result B (remove_prefilled sudoku B Lsh)).1 B) digits := by
  have hLnd : Lsh.Nodup := hsh.nodup_iff.2 digits_nodup
  have hsubset : ∀ v ∈ prefilled_vals sudoku B, v ∈ Lsh := by
    intro v hvv
    rcases List.mem_map.1 hvv with ⟨b, hb, rfl⟩
    have hbB : b ∈ B := List.mem_of_mem_filter hb
    have hnz : sudoku b.1 b.2 ≠ 0 := by
      have := (List.mem_filter.1 hb).2
      simpa using this
    exact hsh.mem_iff.2 ((mem_digits _).2 ⟨Nat.one_le_iff_ne_zero.2 hnz, hwf b hbB⟩)
  have hperm1 : List.Perm
      (prefilled_vals sudoku B ++ remove_prefilled sudoku B Lsh) Lsh := by
    rw [remove_prefilled_eq]
    exact remove_foldl_perm _ _ hLnd hnd hsubset
  have hlen9 : (prefilled_vals sudoku B).length + (remove_prefilled sudoku B Lsh).length
      = 9 := by
    have := hperm1.length_eq
    have h2 := hsh.length_eq
    simp only [List.length_append] at this
    simp [digits] at h2
    omega
  have hcnt : (remove_prefilled sudoku B Lsh).length
      = B.countP (fun b => result b.1 b.2 = 0) := by
    have hc2 : B.filter (fun b => result b.1 b.2 ≠ 0)
        = B.filter (fun b => sudoku b.1 b.2 ≠ 0) :=
      List.filter_congr (fun b hb => by rw [hag b hb])
    have hc3 := countP_zero_add result B
    rw [hc2] at hc3
    have hpl : (prefilled_vals sudoku B).length
        = (B.filter (fun b => sudoku b.1 b.2 ≠ 0)).length := by
      simp [prefilled_vals]
    omega
  have hfill := fill_cells_perm B result (remove_prefilled sudoku B Lsh) hB hcnt
  have hmap : (B.filter (fun b => result b.1 b.2 ≠ 0)).map (fun b => result b.1 b.2)
      = prefilled_vals sudoku B := by
    have hc2 : B.filter (fun b => result b.1 b.2 ≠ 0)
        = B.filter (fun b => sudoku b.1 b.2 ≠ 0) :=
      List.filter_congr (fun b hb => by rw [hag b hb])
    rw [hc2, prefilled_vals]
    exact List.map_congr_left
      (fun b hb => hag b (List.mem_of_mem_filter hb))
  rw [hmap] at hfill
  exact hfill.trans (hperm1.trans hsh)

theorem rm_aux_spec (sudoku : Grid) :
    ∀ (Bs : List (List (ℕ × ℕ))) (sh : ℕ → List ℕ) (result : Grid),
      (∀ B ∈ Bs, B.Nodup ∧ B.length = 9) →
      List.Pairwise (fun A B => ∀ p ∈ A, p ∉ B) Bs →
      (∀ B ∈ Bs, ∀ b ∈ B, result b.1 b.2 = sudoku b.1 b.2) →
      (∀ B ∈ Bs, ∀ b ∈ B, sudoku b.1 b.2 ≤ 9) →
      (∀ B ∈ Bs, (prefilled_vals sudoku B).Nodup) →
      (∀ k, List.Perm (sh k) digits) →
      (∀ i j, (i, j) ∉ Bs.flatten → rm_aux sudoku Bs sh result i j = result i j) ∧
      (∀ i j, result i j ≠ 0 → rm_aux sudoku Bs sh result i j = result i j) ∧
      (∀ B ∈ Bs, List.Perm (block_vals (rm_aux sudoku Bs sh result) B) digits) := by
  intro Bs
  induction Bs with
  | nil =>
      intro sh result _ _ _ _ _ _
      exact ⟨fun i j _ => rfl, fun i j _ => rfl,
        fun B hB => absurd hB (List.not_mem_nil B)⟩
  | cons B Bs ih =>
      intro sh result hBlen hdis hag hwf hnd hsh
      have hdis1 : ∀ B' ∈ Bs, ∀ p ∈ B, p ∉ B' :=
        fun B' hB' p hp => (List.pairwise_cons.1 hdis).1 B' hB' p hp
      have hag' : ∀ B' ∈ Bs, ∀ b ∈ B',
          (fill_cells result B (remove_prefilled sudoku B (sh 0))).1 b.1 b.2
            = sudoku b.1 b.2 := by
        intro B' hB' b hb
        have hbB : (b.1, b.2) ∉ B := fun hbB => (hdis1 B' hB' _ hbB) (by simpa using hb)
        rw [fill_cells_frame _ _ _ _ _ hbB]
        exact hag B' (List.mem_cons_of_mem _ hB') b hb
      have ihh := ih (fun n => sh (n + 1))
        (fill_cells result B (remove_prefilled sudoku B (sh 0))).1
        (fun B' h => hBlen B' (List.mem_cons_of_mem _ h)) (List.pairwise_cons.1 hdis).2
        hag' (fun B' h => hwf B' (List.mem_cons_of_mem _ h))
        (fun B' h => hnd B' (List.mem_cons_of_mem _ h)) (fun k => hsh (k + 1))
      have hstep : rm_aux sudoku (B :: Bs) sh result
          = rm_aux sudoku Bs (fun n => sh (n + 1))
              (fill_cells result B (remove_prefilled sudoku B (sh 0))).1 := rfl
      refine ⟨?_, ?_, ?_⟩
      · intro i j hnotin
        rw [List.flatten_cons] at hnotin
        have hnB : (i, j) ∉ B := fun h => hnotin (List.mem_append.2 (Or.inl h))
        have hnBs : (i, j) ∉ Bs.flatten := fun h => hnotin (List.mem_append.2 (Or.inr h))
        rw [hstep, ihh.1 i j hnBs, fill_cells_frame _ _ _ _ _ hnB]
      · intro i j hne
        have h1 : (fill_cells result B (remove_prefilled sudoku B (sh 0))).1 i j
            = result i j := fill_cells_keep _ _ _ _ _ hne
        rw [hstep, ihh.2.1 i j (by rw [h1]; exact hne), h1]
      · intro B' hB'
        rcases List.mem_cons.1 hB' with rfl | hB''
        · have hptwise : ∀ b ∈ B',
              rm_aux sudoku (B' :: Bs) sh result b.1 b.2
                = (fill_cells result B' (remove_prefilled sudoku B' (sh 0))).1 b.1 b.2 := by
            intro b hb
            have hnBs : (b.1, b.2) ∉ Bs.flatten := by
              intro hmem
              rcases List.mem_flatten.1 hmem with ⟨l, hl, hbl⟩
              exact (hdis1 l hl _ (by simpa using hb)) hbl
            rw [hstep, ihh.1 b.1 b.2 hnBs]
          have hmapeq : block_vals (rm_aux sudoku (B' :: Bs) sh result) B'
              = block_vals (fill_cells result B' (remove_prefilled sudoku B' (sh 0))).1 B' :=
            List.map_congr_left hptwise
          rw [hmapeq]
          exact fill_block_spec sudoku result B' (sh 0)
            (hBlen B' (List.mem_cons_self _ _)).1 (hBlen B' (List.mem_cons_self _ _)).2
            (hag B' (List.mem_cons_self _ _)) (hwf B' (List.mem_cons_self _ _))
            (hnd B' (List.mem_cons_self _ _)) (hsh 0)
        · rw [hstep]
          exact ihh.2.2 B' hB''

/-- The three postconditions of `random_matrix`, packaged as a helper. -/
theorem random_matrix_spec (sudoku : Grid) (sh : ℕ → List ℕ)
    (hwf : ∀ i < 9, ∀ j < 9, sudoku i j ≤ 9)
    (hnd : ∀ B ∈ blocks_index, (prefilled_vals sudoku B).Nodup)
    (hsh : ∀ k, List.Perm (sh k) digits) :
    (∀ i < 9, ∀ j < 9, random_matrix sudoku sh i j ≠ 0) ∧
    (∀ i j, sudoku i j ≠ 0 → random_matrix sudoku sh i j = sudoku i j) ∧
    blocks_valid (random_matrix sudoku sh) := by
  have hspec := rm_aux_spec sudoku blocks_index sh sudoku
    (fun B hB => ⟨blocks_nodup B hB, blocks_len B hB⟩) blocks_disjoint
    (fun B _ b _ => rfl)
    (fun B hB b hb => hwf b.1 (blocks_cells_lt B hB b hb).1 b.2 (blocks_cells_lt B hB b hb).2)
    hnd hsh
  refine ⟨?_, hspec.2.1, hspec.2.2⟩
  intro i hi j hj
  rcases cell_mem_block i hi j hj with ⟨B, hB, hmem⟩
  have hv : random_matrix sudoku sh i j ∈ block_vals (random_matrix sudoku sh) B :=
    List.mem_map.2 ⟨(i, j), hmem, rfl⟩
  have hd := (mem_digits _).1 ((hspec.2.2 B hB).mem_iff.1 hv)
  omega

/-- C3: for every well-formed puzzle whose pre-filled cells have no duplicate
inside any 3×3 block, and every outcome of the per-block shuffles,
`random_matrix` returns a grid in which every cell is non-zero, every
pre-filled cell keeps its original value, and every 3×3 block holds each of
the digits 1..9 exactly once. -/
theorem C3_random_matrix_fills_blocks (sudoku : Grid) (sh : ℕ → List ℕ)
    (hwf : ∀ i < 9, ∀ j < 9, sudoku i j ≤ 9)
    (hnd : ∀ B ∈ blocks_index, (prefilled_vals sudoku B).Nodup)
    (hsh : ∀ k, List.Perm (sh k) digits) :
    (∀ i < 9, ∀ j < 9, random_matrix sudoku sh i j ≠ 0) ∧
    (∀ i j, sudoku i j ≠ 0 → random_matrix sudoku sh i j = sudoku i j) ∧
    (∀ B ∈ blocks_index, List.Perm (block_vals (random_matrix sudoku sh) B) digits) :=
  random_matrix_spec sudoku sh hwf hnd hsh

/-- The all-empty puzzle: a concrete well-formed input used as a witness. -/
def zeroPuzzle : Grid := fun _ _ => 0

/-- A fixed shuffle oracle that always returns the identity permutation. -/
def demoSh : ℕ → List ℕ := fun _ => digits

theorem C3_random_matrix_fills_blocks_witness :
    (∀ i < 9, ∀ j < 9, random_matrix zeroPuzzle demoSh i j ≠ 0) ∧
    (∀ i j, zeroPuzzle i j ≠ 0 → random_matrix zeroPuzzle demoSh i j = zeroPuzzle i j) ∧
    (∀ B ∈ blocks_index, List.Perm (block_vals (random_matrix zeroPuzzle demoSh) B) digits) :=
  C3_random_matrix_fills_blocks zeroPuzzle demoSh
    (fun _ _ _ _ => by simp [zeroPuzzle])
    (by decide)
    (fun _ => List.Perm.refl _)

/-! ### Neighbor move (`Solver.neighbor_sudoku`)

The random block index (`random.randint(0, 8)`) and the two-element
sample (`random.sample(cells_available, 2)`) are supplied by an oracle
`NRand`; the sample is modelled as: pick index `k1 % n` in the available
list, remove it, then pick index `k2 % (n-1)` among the remaining cells.
This reaches exactly the pairs of distinct cells the library can draw. -/

theorem updg_ne (g : Grid) (c : ℕ × ℕ) (v : ℕ) (i j : ℕ) (h : (i, j) ≠ c) :
    updg g c v i j = g i j :=
  if_neg (fun hh => h (Prod.ext hh.1 hh.2))

theorem updg_self (g : Grid) (c : ℕ × ℕ) (v : ℕ) : updg g c v c.1 c.2 = v :=
  if_pos ⟨rfl, rfl⟩

/-- The simultaneous two-cell swap of the source
(`result[c1], result[c2] = result[c2], result[c1]`). -/
def swapg (g : Grid) (c1 c2 : ℕ × ℕ) : Grid :=
  updg (updg g c1 (g c2.1 c2.2)) c2 (g c1.1 c1.2)

theorem swapg_fst (g : Grid) (c1 c2 : ℕ × ℕ) (hne : c1 ≠ c2) :
    swapg g c1 c2 c1.1 c1.2 = g c2.1 c2.2 := by
  unfold swapg
  rw [updg_ne _ _ _ _ _ (fun h => hne h), updg_self]

theorem swapg_snd (g : Grid) (c1 c2 : ℕ × ℕ) :
    swapg g c1 c2 c2.1 c2.2 = g c1.1 c1.2 := updg_self _ _ _

theorem swapg_other (g : Grid) (c1 c2 : ℕ × ℕ) (i j : ℕ)
    (h1 : (i, j) ≠ c1) (h2 : (i, j) ≠ c2) : swapg g c1 c2 i j = g i j := by
  unfold swapg
  rw [updg_ne _ _ _ _ _ h2, updg_ne _ _ _ _ _ h1]

/-- The outcome of the two random draws of one `neighbor_sudoku` call. -/
structure NRand where
  block : ℕ
  k1 : ℕ
  k2 : ℕ

/-- `np.argwhere(grid != 0)`: the row-major list of pre-filled coordinates. -/
def pre_filled_indexes (grid : Grid) : List (ℕ × ℕ) :=
  all_cells.filter (fun p => grid p.1 p.2 ≠ 0)

theorem mem_pre_filled (grid : Grid) (p : ℕ × ℕ) :
    p ∈ pre_filled_indexes grid ↔ p.1 < 9 ∧ p.2 < 9 ∧ grid p.1 p.2 ≠ 0 := by
  simp [pre_filled_indexes, List.mem_filter, mem_all_cells, and_assoc]

/-- `Solver.neighbor_sudoku`: choose a block, collect its cells that are not
pre-filled; if fewer than two are available return the grid unchanged,
otherwise swap two distinct available cells. -/
def neighbor_sudoku (pre : List (ℕ × ℕ)) (grid : Grid) (r : NRand) : Grid :=
  let cells_available := (blocks_index.getD r.block []).filter (fun b => b ∉ pre)
  if cells_available.length < 2 then grid
  else
    let c1 := cells_available.getD (r.k1 % cells_available.length) (0, 0)
    let rest := cells_available.eraseIdx (r.k1 % cells_available.length)
    let c2 := rest.getD (r.k2 % rest.length) (0, 0)
    swapg grid c1 c2

theorem getD_mem (l : List (ℕ × ℕ)) (n : ℕ) (h : n < l.length) :
    l.getD n (0, 0) ∈ l := by
  rw [List.getD_eq_getElem l _ h]
  exact List.getElem_mem h

theorem getD_not_mem_eraseIdx :
    ∀ (l : List (ℕ × ℕ)) (n : ℕ), l.Nodup → n < l.length →
      l.getD n (0, 0) ∉ l.eraseIdx n := by
  intro l
  induction l with
  | nil => intro n _ h; simp at h
  | cons a l ih =>
      intro n hnd hn
      cases n with
      | zero => simpa using (List.nodup_cons.1 hnd).1
      | succ n =>
          have hn' : n < l.length := by simpa using hn
          have hmem : l.getD n (0, 0) ∈ l := getD_mem l n hn'
          simp only [List.getD_cons_succ, List.eraseIdx_cons_succ, List.mem_cons, not_or]
          exact ⟨fun h => (List.nodup_cons.1 hnd).1 (h ▸ hmem),
            ih n (List.nodup_cons.1 hnd).2 hn'⟩

/-- Every call of `neighbor_sudoku` either finds fewer than two available
cells and returns the grid unchanged, or swaps two distinct available
(hence non-pre-filled) cells of the chosen block. -/
theorem neighbor_cases (pre : List (ℕ × ℕ)) (grid : Grid) (r : NRand) :
    ((((blocks_index.getD r.block []).filter (fun b => b ∉ pre)).length < 2) ∧
      neighbor_sudoku pre grid r = grid) ∨
    (2 ≤ (((blocks_index.getD r.block []).filter (fun b => b ∉ pre)).length) ∧
      ∃ c1 c2 : ℕ × ℕ, ∃ B ∈ blocks_index,
        B = blocks_index.getD r.block [] ∧
        c1 ∈ B.filter (fun b => b ∉ pre) ∧ c2 ∈ B.filter (fun b => b ∉ pre) ∧
        c1 ∈ B ∧ c2 ∈ B ∧ c1 ∉ pre ∧ c2 ∉ pre ∧ c1 ≠ c2 ∧
        neighbor_sudoku pre grid r = swapg grid c1 c2) := by
  by_cases hlen :
      (((blocks_index.getD r.block []).filter (fun b => b ∉ pre)).length < 2)
  · left
    refine ⟨hlen, ?_⟩
    unfold neighbor_sudoku
    rw [if_pos hlen]
  · right
    refine ⟨Nat.le_of_not_lt hlen, ?_⟩
    set cells := (blocks_index.getD r.block []).filter (fun b => b ∉ pre) with hcells
    have hlen2 : 2 ≤ cells.length := Nat.le_of_not_lt hlen
    have hblt : r.block < 9 := by
      by_contra hge
      have h9 : blocks_index.length ≤ r.block := by
        simpa [show blocks_index.length = 9 from rfl] using Nat.le_of_not_lt hge
      have : blocks_index.getD r.block [] = [] := List.getD_eq_default _ _ h9
      rw [hcells, this] at hlen2
      simp at hlen2
    have hB : blocks_index.getD r.block [] ∈ blocks_index := by
      rw [List.getD_eq_getElem _ _ (by simpa [show blocks_index.length = 9 from rfl] using hblt)]
      exact List.getElem_mem _
    have hcnd : cells.Nodup := (blocks_nodup _ hB).filter _
    have hi1 : r.k1 % cells.length < cells.length :=
      Nat.mod_lt _ (by omega)
    set i1 := r.k1 % cells.length with hi1def
    set c1 := cells.getD i1 (0, 0) with hc1
    set rest := cells.eraseIdx i1 with hrest
    have hrlen : rest.length = cells.length - 1 := by
      rw [hrest, List.length_eraseIdx]
      simp [hi1]
    have hi2 : r.k2 % rest.length < rest.length :=
      Nat.mod_lt _ (by omega)
    set c2 := rest.getD (r.k2 % rest.length) (0, 0) with hc2
    have hc1mem : c1 ∈ cells := getD_mem _ _ hi1
    have hc2rest : c2 ∈ rest := getD_mem _ _ hi2
    have hc2mem : c2 ∈ cells := (List.eraseIdx_subset cells i1) hc2rest
    have hc1notr : c1 ∉ rest := getD_not_mem_eraseIdx cells i1 hcnd hi1
    have hne : c1 ≠ c2 := fun h => hc1notr (h ▸ hc2rest)
    have hmem1 := List.mem_filter.1 (hcells ▸ hc1mem)
    have hmem2 := List.mem_filter.1 (hcells ▸ hc2mem)
    refine ⟨c1, c2, blocks_index.getD r.block [], hB, rfl,
      hcells ▸ hc1mem, hcells ▸ hc2mem, hmem1.1, hmem2.1,
      by simpa using hmem1.2, by simpa using hmem2.2, hne, ?_⟩
    unfold neighbor_sudoku
    rw [if_neg hlen]

/-- Swapping two distinct cells of a block permutes its value list. -/
theorem block_vals_swap (g : Grid) (B : List (ℕ × ℕ)) (hB : B.Nodup)
    (c1 c2 : ℕ × ℕ) (h1 : c1 ∈ B) (h2 : c2 ∈ B) (hne : c1 ≠ c2) :
    List.Perm (block_vals (swapg g c1 c2) B) (block_vals g B) := by
  rw [← Multiset.coe_eq_coe, block_vals, block_vals, ← Multiset.map_coe, ← Multiset.map_coe]
  have hs : (↑B : Multiset (ℕ × ℕ)).Nodup := Multiset.coe_nodup.2 hB
  have h1m : c1 ∈ (↑B : Multiset (ℕ × ℕ)) := by simpa using h1
  have h2m : c2 ∈ (↑B : Multiset (ℕ × ℕ)).erase c1 :=
    (Multiset.mem_erase_of_ne (fun h => hne h.symm)).2 (by simpa using h2)
  have hsplit : (↑B : Multiset (ℕ × ℕ))
      = c1 ::ₘ c2 ::ₘ (((↑B : Multiset (ℕ × ℕ)).erase c1).erase c2) := by
    rw [Multiset.cons_erase h2m, Multiset.cons_erase h1m]
  set t := (((↑B : Multiset (ℕ × ℕ)).erase c1).erase c2) with ht
  have htfacts : ∀ b ∈ t, b ≠ c1 ∧ b ≠ c2 := by
    intro b hb
    have h1e : (↑B : Multiset (ℕ × ℕ)).erase c1 |>.Nodup := hs.erase c1
    have hb2 := (h1e.mem_erase_iff).1 hb
    have hb1 := (hs.mem_erase_iff).1 hb2.2
    exact ⟨hb1.1, hb2.1⟩
  have hcongr : Multiset.map (fun b => swapg g c1 c2 b.1 b.2) t
      = Multiset.map (fun b => g b.1 b.2) t :=
    Multiset.map_congr rfl (fun b hb =>
      swapg_other g c1 c2 b.1 b.2 (fun h => ((htfacts b hb).1) (by
        cases b; exact h)) (fun h => ((htfacts b hb).2) (by cases b; exact h)))
  rw [hsplit, Multiset.map_cons, Multiset.map_cons, Multiset.map_cons, Multiset.map_cons,
    hcongr, swapg_fst g c1 c2 hne, swapg_snd g c1 c2, Multiset.cons_swap]

/-- Helper for C4: pre-filled cells are untouched by the neighbor move. -/
theorem neighbor_prefilled (puzzle grid : Grid) (r : NRand) :
    ∀ i < 9, ∀ j < 9, puzzle i j ≠ 0 →
      neighbor_sudoku (pre_filled_indexes puzzle) grid r i j = grid i j := by
  intro i hi j hj hpz
  rcases neighbor_cases (pre_filled_indexes puzzle) grid r with ⟨_, h⟩ |
    ⟨_, c1, c2, B, _, _, _, _, _, _, hc1p, hc2p, _, heq⟩
  · rw [h]
  · rw [heq]
    have hp : (i, j) ∈ pre_filled_indexes puzzle := (mem_pre_filled _ _).2 ⟨hi, hj, hpz⟩
    exact swapg_other grid c1 c2 i j (fun h => hc1p (h ▸ hp)) (fun h => hc2p (h ▸ hp))

/-- Helper for C4: every block's multiset of values is untouched. -/
theorem neighbor_blocks (pre : List (ℕ × ℕ)) (grid : Grid) (r : NRand) :
    ∀ B ∈ blocks_index,
      List.Perm (block_vals (neighbor_sudoku pre grid r) B) (block_vals grid B) := by
  intro B hB
  rcases neighbor_cases pre grid r with ⟨_, h⟩ |
    ⟨_, c1, c2, B0, hB0, _, _, _, hc1B, hc2B, _, _, hne, heq⟩
  · rw [h]
  · rw [heq]
    by_cases hsame : B = B0
    · subst hsame
      exact block_vals_swap grid B (blocks_nodup B hB) c1 c2 hc1B hc2B hne
    · have hdisj : ∀ p ∈ B0, p ∉ B := by
        intro p hp0 hpB
        rcases List.mem_iff_get.1 hB with ⟨iB, hiB⟩
        rcases List.mem_iff_get.1 hB0 with ⟨iB0, hiB0⟩
        have hpB' : p ∈ blocks_index.get iB := by rw [hiB]; exact hpB
        have hp0' : p ∈ blocks_index.get iB0 := by rw [hiB0]; exact hp0
        rcases Nat.lt_trichotomy iB.1 iB0.1 with hlt | heqi | hgt
        · exact (List.pairwise_iff_get.1 blocks_disjoint iB iB0 hlt) p hpB' hp0'
        · exact hsame (by rw [← hiB, ← hiB0, Fin.ext heqi])
        · exact (List.pairwise_iff_get.1 blocks_disjoint iB0 iB hgt) p hp0' hpB'
      have hcongr : block_vals (swapg grid c1 c2) B = block_vals grid B :=
        List.map_congr_left (fun b hb =>
          swapg_other grid c1 c2 b.1 b.2
            (fun h => hdisj c1 hc1B (by cases b; exact h ▸ hb))
            (fun h => hdisj c2 hc2B (by cases b; exact h ▸ hb)))
      rw [hcongr]

/-- C4: for every working grid and every outcome of the random choices, the
grid returned by `neighbor_sudoku` keeps the value of every pre-filled cell
of the puzzle, and the multiset of values of each of the 9 blocks is
unchanged. -/
theorem C4_neighbor_preserves (puzzle grid : Grid) (r : NRand) :
    (∀ i < 9, ∀ j < 9, puzzle i j ≠ 0 →
      neighbor_sudoku (pre_filled_indexes puzzle) grid r i j = grid i j) ∧
    (∀ B ∈ blocks_index,
      List.Perm (block_vals (neighbor_sudoku (pre_filled_indexes puzzle) grid r) B)
        (block_vals grid B)) :=
  ⟨neighbor_prefilled puzzle grid r, neighbor_blocks (pre_filled_indexes puzzle) grid r⟩

/-- A concrete valid complete Sudoku grid (used as witness input). -/
def demoGrid : Grid := fun i j => (3 * (i % 3) + i / 3 + j) % 9 + 1

theorem C4_neighbor_preserves_witness :
    neighbor_sudoku (pre_filled_indexes demoGrid) demoGrid ⟨0, 0, 0⟩ 0 0 = demoGrid 0 0 :=
  (C4_neighbor_preserves demoGrid demoGrid ⟨0, 0, 0⟩).1 0 (by norm_num) 0 (by norm_num)
    (by decide)

/-- C9: when the chosen block has fewer than two mutable (non-pre-filled)
cells, `neighbor_sudoku` returns a grid equal to the current working grid as
a normal result; otherwise it returns the grid with exactly two distinct
mutable cells of that block swapped and every other cell unchanged. -/
theorem C9_neighbor_noop_or_swap (pre : List (ℕ × ℕ)) (grid : Grid) (r : NRand) :
    ((((blocks_index.getD r.block []).filter (fun b => b ∉ pre)).length < 2) →
        neighbor_sudoku pre grid r = grid) ∧
    (2 ≤ (((blocks_index.getD r.block []).filter (fun b => b ∉ pre)).length) →
      ∃ c1 c2 : ℕ × ℕ,
        c1 ∈ (blocks_index.getD r.block []).filter (fun b => b ∉ pre) ∧
        c2 ∈ (blocks_index.getD r.block []).filter (fun b => b ∉ pre) ∧
        c1 ≠ c2 ∧
        neighbor_sudoku pre grid r c1.1 c1.2 = grid c2.1 c2.2 ∧
        neighbor_sudoku pre grid r c2.1 c2.2 = grid c1.1 c1.2 ∧
        (∀ i j, (i, j) ≠ c1 → (i, j) ≠ c2 →
          neighbor_sudoku pre grid r i j = grid i j)) := by
  rcases neighbor_cases pre grid r with ⟨hl, heq⟩ |
    ⟨hl2, c1, c2, B, _, hBeq, hc1f, hc2f, _, _, _, _, hne, heq⟩
  · exact ⟨fun _ => heq, fun h2 => absurd h2 (by omega)⟩
  · refine ⟨fun hlt => absurd hlt (by omega),
      fun _ => ⟨c1, c2, ?_, ?_, hne, ?_, ?_, ?_⟩⟩
    · rw [← hBeq]; exact hc1f
    · rw [← hBeq]; exact hc2f
    · rw [heq]; exact swapg_fst grid c1 c2 hne
    · rw [heq]; exact swapg_snd grid c1 c2
    · intro i j h1 h2
      rw [heq]; exact swapg_other grid c1 c2 i j h1 h2

/-- A pre-filled set leaving exactly two mutable cells in block 0. -/
def pre0 : List (ℕ × ℕ) := [(0, 1), (0, 2), (1, 1), (1, 2), (2, 0), (2, 1), (2, 2)]

/-- A small concrete working grid: 1 at cell (0,0), 2 at cell (1,0), 0 elsewhere. -/
def g0 : Grid := ofRows [[1], [2]]

theorem C9_neighbor_noop_or_swap_witness :
    ∃ c1 c2 : ℕ × ℕ,
      c1 ∈ (blocks_index.getD (0 : ℕ) []).filter (fun b => b ∉ pre0) ∧
      c2 ∈ (blocks_index.getD (0 : ℕ) []).filter (fun b => b ∉ pre0) ∧
      c1 ≠ c2 ∧
      neighbor_sudoku pre0 g0 ⟨0, 0, 0⟩ c1.1 c1.2 = g0 c2.1 c2.2 ∧
      neighbor_sudoku pre0 g0 ⟨0, 0, 0⟩ c2.1 c2.2 = g0 c1.1 c1.2 ∧
      (∀ i j, (i, j) ≠ c1 → (i, j) ≠ c2 →
        neighbor_sudoku pre0 g0 ⟨0, 0, 0⟩ i j = g0 i j) :=
  (C9_neighbor_noop_or_swap pre0 g0 ⟨0, 0, 0⟩).2 (by decide)

/-! ### Annealing loop (`Solver.solve`) and initial temperature

Mutable solver state (`self.grid`, `self.grid_score`, `self.temperature`)
is threaded explicitly.  `grid_score` is an integer because the source
updates it with Python-integer arithmetic
(`self.grid_score += neighbor_score - self.grid_score`).  The uniform
draw `np.random.uniform(1, 0, 1)` is modelled by its defining formula
`low + (high - low) * u = 1 + (0 - 1) * u` for a unit uniform
`u ∈ [0, 1)`. -/

/-- Mutable state of the solver. -/
structure SState where
  grid : Grid
  score : ℤ
  temperature : ℝ

/-- The random draws consumed by one inner-loop iteration: the neighbor
draws and the unit uniform behind `np.random.uniform(1, 0, 1)`. -/
structure Rand where
  nr : NRand
  u : ℝ

/-- The value numpy returns for `np.random.uniform(1, 0, 1)` when the
underlying unit uniform is `u`: `low + (high - low) * u`. -/
def uniform_1_0 (u : ℝ) : ℝ := 1 + (0 - 1) * u

open Classical in
/-- One iteration of the inner loop of `Solver.solve`: draw a neighbor,
score it, accept it iff the uniform draw is below
`p = exp((grid_score - neighbor_score) / temperature)`.  The source's local
variables `neighbor`, `neighbor_score` and `p` are inlined. -/
noncomputable def inner_step (pre : List (ℕ × ℕ)) (st : SState) (r : Rand) : SState :=
  if uniform_1_0 r.u <
      Real.exp (((st.score : ℝ)
        - ((compute_error (neighbor_sudoku pre st.grid r.nr) : ℤ) : ℝ)) / st.temperature)
  then
    { st with grid := neighbor_sudoku pre st.grid r.nr,
              score := st.score
                + ((compute_error (neighbor_sudoku pre st.grid r.nr) : ℤ) - st.score) }
  else st

/-- The inner `for _ in range(self.limit)` loop, with its early return when
`grid_score <= 0`. -/
noncomputable def inner_loop (pre : List (ℕ × ℕ)) : SState → (ℕ → Rand) → ℕ → SState ⊕ Grid
  | st, _, 0 => Sum.inl st
  | st, rs, k + 1 =>
      let st' := inner_step pre st (rs 0)
      if st'.score ≤ 0 then Sum.inr st'.grid
      else inner_loop pre st' (fun n => rs (n + 1)) k

/-- One epoch of the outer `while True` loop, after its entry check: run the
inner loop, update the reheat counter, cool the temperature, and reheat it
when the counter exceeds 80. -/
noncomputable def epoch (pre : List (ℕ × ℕ)) (limit : ℕ) (cooling_rate : ℝ)
    (st : SState) (reheats : ℕ) (rs : ℕ → Rand) : (SState × ℕ) ⊕ Grid :=
  match inner_loop pre st rs limit with
  | Sum.inr g => Sum.inr g
  | Sum.inl st' =>
      let reheats' := if st'.score ≥ st.score then reheats + 1 else 0
      let st'' := { st' with temperature := st'.temperature * cooling_rate }
      if reheats' > 80 then Sum.inl ({ st'' with temperature := st''.temperature + 2 }, 0)
      else Sum.inl (st'', reheats')

/-- `Solver.solve`, with an explicit fuel bound on the number of epochs:
`none` means the loop had not terminated within `fuel` epochs. -/
noncomputable def solve_loop (pre : List (ℕ × ℕ)) (limit : ℕ) (cooling_rate : ℝ)
    (rss : ℕ → ℕ → Rand) : ℕ → SState → ℕ → Option Grid
  | 0, _, _ => none
  | fuel + 1, st, reheats =>
      if compute_error st.grid = 0 then some st.grid
      else
        match epoch pre limit cooling_rate st reheats (rss 0) with
        | Sum.inr g => some g
        | Sum.inl (st', reheats') =>
            solve_loop pre limit cooling_rate (fun n => rss (n + 1)) fuel st' reheats'

/-- The 10-step exploratory walk of `Solver.init_temperature`: repeatedly
replace the working grid by a neighbor and record each score. -/
def init_walk (pre : List (ℕ × ℕ)) : (ℕ → NRand) → ℕ → Grid × ℤ → List ℕ × (Grid × ℤ)
  | _, 0, st => ([], st)
  | nr, k + 1, st =>
      let neighbor := neighbor_sudoku pre st.1 (nr 0)
      let neighbor_score := compute_error neighbor
      let rest := init_walk pre (fun n => nr (n + 1)) k (neighbor, (neighbor_score : ℤ))
      (neighbor_score :: rest.1, rest.2)

/-- Population standard deviation, as computed by `np.std`. -/
noncomputable def npstd (l : List ℝ) : ℝ :=
  Real.sqrt ((l.map (fun x => (x - l.sum / l.length) ^ 2)).sum / l.length)

/-- `Solver.init_temperature`: walk 10 neighbor steps, mutating the working
grid and score, and return the population standard deviation of the 10
recorded scores together with the mutated state. -/
noncomputable def init_temperature (pre : List (ℕ × ℕ)) (nr : ℕ → NRand)
    (st : Grid × ℤ) : ℝ × (Grid × ℤ) :=
  (npstd ((init_walk pre nr 10 st).1.map (fun (s : ℕ) => (s : ℝ))),
   (init_walk pre nr 10 st).2)

/-- All random draws of one solver run. -/
structure Oracles where
  shuffles : ℕ → List ℕ
  walk_rand : ℕ → NRand
  solve_rand : ℕ → ℕ → Rand

/-- The per-run constants fixed at construction. -/
structure Cfg where
  pre_filled : List (ℕ × ℕ)
  limit : ℕ
  cooling_rate : ℝ

/-- `Solver.__init__`: build the working grid with `random_matrix`, score
it, record the pre-filled coordinates, run `init_temperature` (which also
mutates grid and score), and count the empty cells as `limit`. -/
noncomputable def mkSolver (puzzle : Grid) (cooling_rate : ℝ) (o : Oracles) :
    Cfg × SState :=
  let grid0 := random_matrix puzzle o.shuffles
  let score0 : ℤ := (compute_error grid0 : ℤ)
  let pre := pre_filled_indexes puzzle
  let it := init_temperature pre o.walk_rand (grid0, score0)
  let limit := all_cells.countP (fun p => puzzle p.1 p.2 = 0)
  (⟨pre, limit, cooling_rate⟩, ⟨it.2.1, it.2.2, it.1⟩)

/-- The whole run: construct the solver, then run `solve` for at most
`fuel` epochs. -/
noncomputable def solve (puzzle : Grid) (cooling_rate : ℝ) (o : Oracles) (fuel : ℕ) :
    Option Grid :=
  let cs := mkSolver puzzle cooling_rate o
  solve_loop cs.1.pre_filled cs.1.limit cs.1.cooling_rate o.solve_rand fuel cs.2 0

/-! ### Run invariants -/

/-- The stored score field matches the error of the working grid. -/
def Synced (st : SState) : Prop := st.score = (compute_error st.grid : ℤ)

/-- The search invariant relative to the input puzzle: pre-filled cells
keep their original values and every block is a permutation of 1..9. -/
def Inv (puzzle g : Grid) : Prop :=
  (∀ i < 9, ∀ j < 9, puzzle i j ≠ 0 → g i j = puzzle i j) ∧ blocks_valid g

theorem neighbor_inv (puzzle g : Grid) (r : NRand) (h : Inv puzzle g) :
    Inv puzzle (neighbor_sudoku (pre_filled_indexes puzzle) g r) := by
  constructor
  · intro i hi j hj hpz
    rw [neighbor_prefilled puzzle g r i hi j hj hpz]
    exact h.1 i hi j hj hpz
  · intro B hB
    exact (neighbor_blocks (pre_filled_indexes puzzle) g r B hB).trans (h.2 B hB)

theorem inner_step_grid_or (pre : List (ℕ × ℕ)) (st : SState) (r : Rand) :
    (inner_step pre st r).grid = st.grid ∨
    (inner_step pre st r).grid = neighbor_sudoku pre st.grid r.nr := by
  unfold inner_step
  split
  · right; rfl
  · left; rfl

theorem inner_step_synced (pre : List (ℕ × ℕ)) (st : SState) (r : Rand)
    (h : Synced st) : Synced (inner_step pre st r) := by
  unfold inner_step
  split
  · show st.score + ((compute_error (neighbor_sudoku pre st.grid r.nr) : ℤ) - st.score)
      = (compute_error (neighbor_sudoku pre st.grid r.nr) : ℤ)
    omega
  · exact h

theorem inner_step_temp (pre : List (ℕ × ℕ)) (st : SState) (r : Rand) :
    (inner_step pre st r).temperature = st.temperature := by
  unfold inner_step
  split <;> rfl

theorem inner_step_inv (puzzle : Grid) (st : SState) (r : Rand)
    (h : Inv puzzle st.grid) :
    Inv puzzle (inner_step (pre_filled_indexes puzzle) st r).grid := by
  rcases inner_step_grid_or (pre_filled_indexes puzzle) st r with h1 | h1 <;> rw [h1]
  · exact h
  · exact neighbor_inv puzzle st.grid r.nr h

theorem inner_loop_spec (puzzle : Grid) :
    ∀ (k : ℕ) (st : SState) (rs : ℕ → Rand),
      Inv puzzle st.grid → Synced st →
      (∀ st', inner_loop (pre_filled_indexes puzzle) st rs k = Sum.inl st' →
        Inv puzzle st'.grid ∧ Synced st' ∧ st'.temperature = st.temperature) ∧
      (∀ g, inner_loop (pre_filled_indexes puzzle) st rs k = Sum.inr g →
        Inv puzzle g ∧ compute_error g = 0) := by
  intro k
  induction k with
  | zero =>
      intro st rs hInv hS
      constructor
      · intro st' h
        cases h
        exact ⟨hInv, hS, rfl⟩
      · intro g h
        cases h
  | succ k ih =>
      intro st rs hInv hS
      have hI' := inner_step_inv puzzle st (rs 0) hInv
      have hS' := inner_step_synced (pre_filled_indexes puzzle) st (rs 0) hS
      have hT' := inner_step_temp (pre_filled_indexes puzzle) st (rs 0)
      have hunf : inner_loop (pre_filled_indexes puzzle) st rs (k + 1)
          = if (inner_step (pre_filled_indexes puzzle) st (rs 0)).score ≤ 0
            then Sum.inr (inner_step (pre_filled_indexes puzzle) st (rs 0)).grid
            else inner_loop (pre_filled_indexes puzzle)
              (inner_step (pre_filled_indexes puzzle) st (rs 0)) (fun n => rs (n + 1)) k :=
        rfl
      by_cases hsc : (inner_step (pre_filled_indexes puzzle) st (rs 0)).score ≤ 0
      · rw [hunf, if_pos hsc]
        constructor
        · intro st' h
          cases h
        · intro g h
          cases h
          have h0 : compute_error (inner_step (pre_filled_indexes puzzle) st (rs 0)).grid
              = 0 := by
            have := hS'
            unfold Synced at this
            omega
          exact ⟨hI', h0⟩
      · rw [hunf, if_neg hsc]
        have hrec := ih (inner_step (pre_filled_indexes puzzle) st (rs 0))
          (fun n => rs (n + 1)) hI' hS'
        constructor
        · intro st' h
          rcases hrec.1 st' h with ⟨a, b, c⟩
          exact ⟨a, b, c.trans hT'⟩
        · exact hrec.2

theorem epoch_inl_eq (pre : List (ℕ × ℕ)) (limit : ℕ) (rate : ℝ) (st st1 : SState)
    (reheats : ℕ) (rs : ℕ → Rand)
    (h : inner_loop pre st rs limit = Sum.inl st1) :
    epoch pre limit rate st reheats rs
      = (if (if st1.score ≥ st.score then reheats + 1 else 0) > 80
        then Sum.inl ({ st1 with temperature := st1.temperature * rate + 2 }, 0)
        else Sum.inl ({ st1 with temperature := st1.temperature * rate },
          if st1.score ≥ st.score then reheats + 1 else 0)) := by
  unfold epoch
  rw [h]

theorem epoch_inr_eq (pre : List (ℕ × ℕ)) (limit : ℕ) (rate : ℝ) (st : SState)
    (reheats : ℕ) (rs : ℕ → Rand) (g : Grid)
    (h : inner_loop pre st rs limit = Sum.inr g) :
    epoch pre limit rate st reheats rs = Sum.inr g := by
  unfold epoch
  rw [h]

theorem epoch_spec (puzzle : Grid) (limit : ℕ) (rate : ℝ) (st : SState)
    (reheats : ℕ) (rs : ℕ → Rand) (hInv : Inv puzzle st.grid) (hS : Synced st) :
    (∀ st' rh',
      epoch (pre_filled_indexes puzzle) limit rate st reheats rs = Sum.inl (st', rh') →
      Inv puzzle st'.grid ∧ Synced st') ∧
    (∀ g, epoch (pre_filled_indexes puzzle) limit rate st reheats rs = Sum.inr g →
      Inv puzzle g ∧ compute_error g = 0) := by
  have hspec := inner_loop_spec puzzle limit st rs hInv hS
  rcases hil : inner_loop (pre_filled_indexes puzzle) st rs limit with st1 | g1
  · have hl := hspec.1 st1 hil
    rw [epoch_inl_eq (pre_filled_indexes puzzle) limit rate st st1 reheats rs hil]
    constructor
    · intro st' rh' heq
      by_cases hgt : (if st1.score ≥ st.score then reheats + 1 else 0) > 80
      · rw [if_pos hgt] at heq
        cases heq
        exact ⟨hl.1, hl.2.1⟩
      · rw [if_neg hgt] at heq
        cases heq
        exact ⟨hl.1, hl.2.1⟩
    · intro g heq
      by_cases hgt : (if st1.score ≥ st.score then reheats + 1 else 0) > 80
      · rw [if_pos hgt] at heq
        cases heq
      · rw [if_neg hgt] at heq
        cases heq
  · rw [epoch_inr_eq (pre_filled_indexes puzzle) limit rate st reheats rs g1 hil]
    constructor
    · intro st' rh' heq
      cases heq
    · intro g heq
      cases heq
      exact hspec.2 g1 hil

theorem solve_loop_spec (puzzle : Grid) (limit : ℕ) (rate : ℝ) :
    ∀ (fuel : ℕ) (st : SState) (reheats : ℕ) (rss : ℕ → ℕ → Rand) (g : Grid),
      Inv puzzle st.grid → Synced st →
      solve_loop (pre_filled_indexes puzzle) limit rate rss fuel st reheats = some g →
      Inv puzzle g ∧ compute_error g = 0 := by
  intro fuel
  induction fuel with
  | zero =>
      intro st reheats rss g _ _ h
      cases h
  | succ fuel ih =>
      intro st reheats rss g hInv hS h
      have hunf : solve_loop (pre_filled_indexes puzzle) limit rate rss (fuel + 1) st reheats
          = if compute_error st.grid = 0 then some st.grid
            else
              match epoch (pre_filled_indexes puzzle) limit rate st reheats (rss 0) with
              | Sum.inr g => some g
              | Sum.inl (st', reheats') =>
                  solve_loop (pre_filled_indexes puzzle) limit rate
                    (fun n => rss (n + 1)) fuel st' reheats' := rfl
      rw [hunf] at h
      by_cases h0 : compute_error st.grid = 0
      · rw [if_pos h0] at h
        cases h
        exact ⟨hInv, h0⟩
      · rw [if_neg h0] at h
        have hep := epoch_spec puzzle limit rate st reheats (rss 0) hInv hS
        cases hE : epoch (pre_filled_indexes puzzle) limit rate st reheats (rss 0) with
        | inl sp =>
            rw [hE] at h
            have h' : solve_loop (pre_filled_indexes puzzle) limit rate
                (fun n => rss (n + 1)) fuel sp.1 sp.2 = some g := h
            rcases hep.1 sp.1 sp.2 hE with ⟨a, b⟩
            exact ih sp.1 sp.2 (fun n => rss (n + 1)) g a b h'
        | inr g1 =>
            rw [hE] at h
            have h' : some g1 = some g := h
            rw [← Option.some.inj h']
            exact hep.2 g1 hE

theorem init_walk_inv (puzzle : Grid) :
    ∀ (k : ℕ) (nr : ℕ → NRand) (st : Grid × ℤ),
      Inv puzzle st.1 → st.2 = (compute_error st.1 : ℤ) →
      Inv puzzle (init_walk (pre_filled_indexes puzzle) nr k st).2.1 ∧
      (init_walk (pre_filled_indexes puzzle) nr k st).2.2
        = (compute_error (init_walk (pre_filled_indexes puzzle) nr k st).2.1 : ℤ) := by
  intro k
  induction k with
  | zero =>
      intro nr st hInv hS
      exact ⟨hInv, hS⟩
  | succ k ih =>
      intro nr st hInv hS
      exact ih (fun n => nr (n + 1))
        (neighbor_sudoku (pre_filled_indexes puzzle) st.1 (nr 0),
          (compute_error (neighbor_sudoku (pre_filled_indexes puzzle) st.1 (nr 0)) : ℤ))
        (neighbor_inv puzzle st.1 (nr 0) hInv) rfl

theorem mkSolver_state (puzzle : Grid) (rate : ℝ) (o : Oracles)
    (hwf : ∀ i < 9, ∀ j < 9, puzzle i j ≤ 9)
    (hnd : ∀ B ∈ blocks_index, (prefilled_vals puzzle B).Nodup)
    (hsh : ∀ k, List.Perm (o.shuffles k) digits) :
    Inv puzzle (mkSolver puzzle rate o).2.grid ∧ Synced (mkSolver puzzle rate o).2 := by
  have hrm := random_matrix_spec puzzle o.shuffles hwf hnd hsh
  have hInv0 : Inv puzzle (random_matrix puzzle o.shuffles) :=
    ⟨fun i _ j _ hne => hrm.2.1 i j hne, hrm.2.2⟩
  have hw := init_walk_inv puzzle 10 o.walk_rand
    (random_matrix puzzle o.shuffles, (compute_error (random_matrix puzzle o.shuffles) : ℤ))
    hInv0 rfl
  exact ⟨hw.1, hw.2⟩

/-- C1: partial correctness of `solve`.  For every well-formed puzzle (9×9,
values in [0,9], no duplicate pre-filled value inside a block) and every
outcome of the random draws, if `solve` terminates then the returned grid is
a valid Sudoku solution — all entries 1..9, each row, column and block a
permutation of 1..9 — and every pre-filled cell keeps its original value. -/
theorem C1_solve_partial_correctness (puzzle : Grid) (rate : ℝ) (o : Oracles)
    (fuel : ℕ) (g : Grid)
    (hwf : ∀ i < 9, ∀ j < 9, puzzle i j ≤ 9)
    (hnd : ∀ B ∈ blocks_index, (prefilled_vals puzzle B).Nodup)
    (hsh : ∀ k, List.Perm (o.shuffles k) digits)
    (hterm : solve puzzle rate o fuel = some g) :
    valid_solution g ∧ (∀ i < 9, ∀ j < 9, puzzle i j ≠ 0 → g i j = puzzle i j) := by
  have hmk := mkSolver_state puzzle rate o hwf hnd hsh
  have hterm' : solve_loop (pre_filled_indexes puzzle) (mkSolver puzzle rate o).1.limit
      ((mkSolver puzzle rate o).1.cooling_rate) o.solve_rand fuel
      (mkSolver puzzle rate o).2 0 = some g := hterm
  have hsl := solve_loop_spec puzzle (mkSolver puzzle rate o).1.limit
    ((mkSolver puzzle rate o).1.cooling_rate) fuel (mkSolver puzzle rate o).2 0
    o.solve_rand g hmk.1 hmk.2 hterm'
  exact ⟨valid_of_blocks_error_zero g hsl.1.2 hsl.2, hsl.1.1⟩

/-- Fixed neighbor-draw oracle. -/
def demoNR : ℕ → NRand := fun _ => ⟨0, 0, 0⟩

/-- Fixed inner-loop oracle. -/
def demoRand : ℕ → ℕ → Rand := fun _ _ => ⟨⟨0, 0, 0⟩, 0⟩

/-- Fixed oracles for witness runs. -/
def demoO : Oracles := ⟨demoSh, demoNR, demoRand⟩

theorem solve_loop_done (pre : List (ℕ × ℕ)) (limit : ℕ) (rate : ℝ)
    (rss : ℕ → ℕ → Rand) (fuel : ℕ) (st : SState) (reheats : ℕ)
    (h : compute_error st.grid = 0) :
    solve_loop pre limit rate rss (fuel + 1) st reheats = some st.grid := by
  have hunf : solve_loop pre limit rate rss (fuel + 1) st reheats
      = if compute_error st.grid = 0 then some st.grid
        else
          match epoch pre limit rate st reheats (rss 0) with
          | Sum.inr g => some g
          | Sum.inl (st', reheats') =>
              solve_loop pre limit rate (fun n => rss (n + 1)) fuel st' reheats' := rfl
  rw [hunf, if_pos h]

set_option maxHeartbeats 1000000 in
theorem C1_solve_partial_correctness_witness :
    ∃ g, solve demoGrid 0.99 demoO 1 = some g ∧ valid_solution g ∧
      (∀ i < 9, ∀ j < 9, demoGrid i j ≠ 0 → g i j = demoGrid i j) := by
  have hgrid : (mkSolver demoGrid 0.99 demoO).2.grid = demoGrid := rfl
  have h0 : compute_error ((mkSolver demoGrid 0.99 demoO).2.grid) = 0 := by
    rw [hgrid]
    decide
  have hterm : solve demoGrid 0.99 demoO 1
      = some ((mkSolver demoGrid 0.99 demoO).2.grid) :=
    solve_loop_done (mkSolver demoGrid 0.99 demoO).1.pre_filled
      (mkSolver demoGrid 0.99 demoO).1.limit (mkSolver demoGrid 0.99 demoO).1.cooling_rate
      demoO.solve_rand 0 (mkSolver demoGrid 0.99 demoO).2 0 h0
  exact ⟨_, hterm, C1_solve_partial_correctness demoGrid 0.99 demoO 1 _
    (by decide) (by decide) (fun _ => List.Perm.refl _) hterm⟩

theorem C2_error_characterization_witness :
    (compute_error demoGrid = 0
      ↔ (∀ i < 9, (row_vals demoGrid i).Nodup) ∧ (∀ j < 9, (col_vals demoGrid j).Nodup)) ∧
    (compute_error demoGrid = 0 ↔ valid_solution demoGrid) :=
  ⟨C2_error_characterization.1 demoGrid (by decide),
   C2_error_characterization.2 demoGrid (by unfold blocks_valid; decide)⟩

/-! ### The initial-temperature walk, step by step (C7) -/

/-- The grid reached after `k` successive neighbor moves, each generated
from and applied to the result of the previous one. -/
def walk_grid (pre : List (ℕ × ℕ)) (nr : ℕ → NRand) (g : Grid) : ℕ → Grid
  | 0 => g
  | k + 1 => neighbor_sudoku pre (walk_grid pre nr g k) (nr k)

theorem walk_grid_shift (pre : List (ℕ × ℕ)) (nr : ℕ → NRand) (g : Grid) :
    ∀ i, walk_grid pre (fun n => nr (n + 1)) (neighbor_sudoku pre g (nr 0)) i
      = walk_grid pre nr g (i + 1) := by
  intro i
  induction i with
  | zero => rfl
  | succ i ih =>
      show neighbor_sudoku pre _ _ = neighbor_sudoku pre _ _
      rw [ih]

theorem init_walk_eq (pre : List (ℕ × ℕ)) :
    ∀ (k : ℕ) (nr : ℕ → NRand) (st : Grid × ℤ),
      init_walk pre nr k st
        = ((List.range k).map
            (fun i => compute_error (walk_grid pre nr st.1 (i + 1))),
           (walk_grid pre nr st.1 k,
            if k = 0 then st.2 else (compute_error (walk_grid pre nr st.1 k) : ℤ))) := by
  intro k
  induction k with
  | zero => intro nr st; rfl
  | succ k ih =>
      intro nr st
      have hunf : init_walk pre nr (k + 1) st
          = ((compute_error (neighbor_sudoku pre st.1 (nr 0))) ::
              (init_walk pre (fun n => nr (n + 1)) k
                (neighbor_sudoku pre st.1 (nr 0),
                 (compute_error (neighbor_sudoku pre st.1 (nr 0)) : ℤ))).1,
             (init_walk pre (fun n => nr (n + 1)) k
               (neighbor_sudoku pre st.1 (nr 0),
                (compute_error (neighbor_sudoku pre st.1 (nr 0)) : ℤ))).2) := rfl
      rw [hunf, ih (fun n => nr (n + 1))
        (neighbor_sudoku pre st.1 (nr 0),
         (compute_error (neighbor_sudoku pre st.1 (nr 0)) : ℤ))]
      have hsh : ∀ i ∈ List.range k,
          compute_error (walk_grid pre (fun n => nr (n + 1))
            (neighbor_sudoku pre st.1 (nr 0)) (i + 1))
          = compute_error (walk_grid pre nr st.1 (i + 1 + 1)) := by
        intro i _
        rw [walk_grid_shift]
      refine Prod.ext ?_ (Prod.ext ?_ ?_)
      · show compute_error (neighbor_sudoku pre st.1 (nr 0)) ::
            (List.range k).map (fun i => compute_error
              (walk_grid pre (fun n => nr (n + 1))
                (neighbor_sudoku pre st.1 (nr 0)) (i + 1)))
          = (List.range (k + 1)).map (fun i => compute_error (walk_grid pre nr st.1 (i + 1)))
        rw [List.range_succ_eq_map, List.map_cons, List.map_map, List.map_congr_left hsh]
        rfl
      · show walk_grid pre (fun n => nr (n + 1)) (neighbor_sudoku pre st.1 (nr 0)) k
          = walk_grid pre nr st.1 (k + 1)
        exact walk_grid_shift pre nr st.1 k
      · show (if k = 0 then (compute_error (neighbor_sudoku pre st.1 (nr 0)) : ℤ)
            else (compute_error (walk_grid pre (fun n => nr (n + 1))
              (neighbor_sudoku pre st.1 (nr 0)) k) : ℤ))
          = if k + 1 = 0 then st.2 else (compute_error (walk_grid pre nr st.1 (k + 1)) : ℤ)
        rw [if_neg (Nat.succ_ne_zero k), walk_grid_shift]
        by_cases hk : k = 0
        · subst hk
          rw [if_pos rfl]
          rfl
        · rw [if_neg hk]

/-- C7: `init_temperature` performs exactly 10 successive neighbor moves,
each generated from and applied to the running working grid, records the
error score after each step, returns the population standard deviation of
the 10 recorded scores, and leaves the working grid and stored score at the
state after the 10th step — the state the annealing loop starts from. -/
theorem C7_init_temperature_walk :
    (∀ (pre : List (ℕ × ℕ)) (nr : ℕ → NRand) (st : Grid × ℤ),
      init_temperature pre nr st
        = (npstd ((List.range 10).map
            (fun k => (compute_error (walk_grid pre nr st.1 (k + 1)) : ℝ))),
           (walk_grid pre nr st.1 10,
            (compute_error (walk_grid pre nr st.1 10) : ℤ)))) ∧
    (∀ (puzzle : Grid) (rate : ℝ) (o : Oracles),
      (mkSolver puzzle rate o).2.grid
        = walk_grid (pre_filled_indexes puzzle) o.walk_rand
            (random_matrix puzzle o.shuffles) 10 ∧
      (mkSolver puzzle rate o).2.score
        = (compute_error (walk_grid (pre_filled_indexes puzzle) o.walk_rand
            (random_matrix puzzle o.shuffles) 10) : ℤ) ∧
      (mkSolver puzzle rate o).2.temperature
        = npstd ((List.range 10).map
            (fun k => (compute_error (walk_grid (pre_filled_indexes puzzle) o.walk_rand
              (random_matrix puzzle o.shuffles) (k + 1)) : ℝ)))) ∧
    (∀ (puzzle : Grid) (rate : ℝ) (o : Oracles) (fuel : ℕ),
      solve puzzle rate o fuel
        = solve_loop (mkSolver puzzle rate o).1.pre_filled
            (mkSolver puzzle rate o).1.limit (mkSolver puzzle rate o).1.cooling_rate
            o.solve_rand fuel (mkSolver puzzle rate o).2 0) := by
  have key : ∀ (pre : List (ℕ × ℕ)) (nr : ℕ → NRand) (st : Grid × ℤ),
      init_temperature pre nr st
        = (npstd ((List.range 10).map
            (fun k => (compute_error (walk_grid pre nr st.1 (k + 1)) : ℝ))),
           (walk_grid pre nr st.1 10,
            (compute_error (walk_grid pre nr st.1 10) : ℤ))) := by
    intro pre nr st
    show (npstd ((init_walk pre nr 10 st).1.map (fun (s : ℕ) => (s : ℝ))),
        (init_walk pre nr 10 st).2) = _
    rw [init_walk_eq pre 10 nr st]
    refine Prod.ext ?_ ?_
    · show npstd (((List.range 10).map
          (fun i => compute_error (walk_grid pre nr st.1 (i + 1)))).map (fun (s : ℕ) => (s : ℝ)))
        = _
      rw [List.map_map]
      rfl
    · rfl
  refine ⟨key, ?_, fun _ _ _ _ => rfl⟩
  intro puzzle rate o
  have h := key (pre_filled_indexes puzzle) o.walk_rand
    (random_matrix puzzle o.shuffles, (compute_error (random_matrix puzzle o.shuffles) : ℤ))
  exact ⟨congrArg (fun x => x.2.1) h, congrArg (fun x => x.2.2) h,
    congrArg (fun x => x.1) h⟩

theorem init_walk_synced (pre : List (ℕ × ℕ)) :
    ∀ (k : ℕ) (nr : ℕ → NRand) (st : Grid × ℤ), st.2 = (compute_error st.1 : ℤ) →
      (init_walk pre nr k st).2.2 = (compute_error (init_walk pre nr k st).2.1 : ℤ) := by
  intro k
  induction k with
  | zero => intro nr st h; exact h
  | succ k ih =>
      intro nr st _
      exact ih (fun n => nr (n + 1))
        (neighbor_sudoku pre st.1 (nr 0),
         (compute_error (neighbor_sudoku pre st.1 (nr 0)) : ℤ)) rfl

/-- C10: the stored score always matches the working grid — it does after
construction, after each step of the `init_temperature` walk, and after
each inner-loop iteration; consequently the early-return test
`grid_score <= 0` is equivalent to re-scoring the grid. -/
theorem C10_score_synchronized :
    (∀ (puzzle : Grid) (rate : ℝ) (o : Oracles), Synced (mkSolver puzzle rate o).2) ∧
    (∀ (pre : List (ℕ × ℕ)) (nr : ℕ → NRand) (k : ℕ) (st : Grid × ℤ),
      st.2 = (compute_error st.1 : ℤ) →
      (init_walk pre nr k st).2.2 = (compute_error (init_walk pre nr k st).2.1 : ℤ)) ∧
    (∀ (pre : List (ℕ × ℕ)) (st : SState) (r : Rand),
      Synced st → Synced (inner_step pre st r)) ∧
    (∀ st : SState, Synced st → (st.score ≤ 0 ↔ compute_error st.grid = 0)) := by
  refine ⟨?_, fun pre nr k st h => init_walk_synced pre k nr st h,
    inner_step_synced, ?_⟩
  · intro puzzle rate o
    exact init_walk_synced (pre_filled_indexes puzzle) 10 o.walk_rand
      (random_matrix puzzle o.shuffles,
       (compute_error (random_matrix puzzle o.shuffles) : ℤ)) rfl
  · intro st h
    unfold Synced at h
    constructor
    · intro hle
      omega
    · intro heq
      omega

theorem C10_score_synchronized_witness :
    Synced (inner_step pre0 ⟨g0, (compute_error g0 : ℤ), 1⟩ ⟨⟨0, 0, 0⟩, 0⟩) :=
  C10_score_synchronized.2.2.1 pre0 ⟨g0, (compute_error g0 : ℤ), 1⟩ ⟨⟨0, 0, 0⟩, 0⟩ rfl

/-! ### The acceptance criterion (C5) and the temperature schedule (C6) -/

/-- C5 (amended): in every inner-loop iteration the acceptance probability
is `p = exp((currentScore − neighborScore) / temperature)` and the neighbor
is accepted (working grid and score replaced) exactly when the drawn value
is less than `p`.  But the draw — `np.random.uniform(1, 0, 1)`, that is
`1 + (0 − 1)·u` for a unit uniform `u ∈ [0, 1)` — lies in (0, 1], not in
[0, 1): an improving move is still always accepted, while a score-neutral
move (`p = 1`) is accepted iff `0 < u`, i.e. rejected at the boundary
outcome `u = 0` where the draw equals 1. -/
theorem C5_acceptance_criterion (pre : List (ℕ × ℕ)) (st : SState) (r : Rand) :
    (uniform_1_0 r.u <
        Real.exp (((st.score : ℝ)
          - ((compute_error (neighbor_sudoku pre st.grid r.nr) : ℤ) : ℝ))
            / st.temperature) →
      inner_step pre st r
        = ⟨neighbor_sudoku pre st.grid r.nr,
           (compute_error (neighbor_sudoku pre st.grid r.nr) : ℤ),
           st.temperature⟩) ∧
    (¬ uniform_1_0 r.u <
        Real.exp (((st.score : ℝ)
          - ((compute_error (neighbor_sudoku pre st.grid r.nr) : ℤ) : ℝ))
            / st.temperature) →
      inner_step pre st r = st) ∧
    (0 ≤ r.u → 0 < st.temperature →
      (compute_error (neighbor_sudoku pre st.grid r.nr) : ℤ) < st.score →
      uniform_1_0 r.u <
        Real.exp (((st.score : ℝ)
          - ((compute_error (neighbor_sudoku pre st.grid r.nr) : ℤ) : ℝ))
            / st.temperature)) ∧
    ((compute_error (neighbor_sudoku pre st.grid r.nr) : ℤ) = st.score →
      0 < st.temperature →
      (uniform_1_0 r.u <
        Real.exp (((st.score : ℝ)
          - ((compute_error (neighbor_sudoku pre st.grid r.nr) : ℤ) : ℝ))
            / st.temperature) ↔ 0 < r.u)) := by
  refine ⟨?_, ?_, ?_, ?_⟩
  · intro h
    unfold inner_step
    rw [if_pos h]
    have hsc : st.score
        + ((compute_error (neighbor_sudoku pre st.grid r.nr) : ℤ) - st.score)
        = (compute_error (neighbor_sudoku pre st.grid r.nr) : ℤ) := by omega
    rw [hsc]
  · intro h
    unfold inner_step
    rw [if_neg h]
  · intro hu hT hlt
    have hcast : ((compute_error (neighbor_sudoku pre st.grid r.nr) : ℤ) : ℝ)
        < (st.score : ℝ) := Int.cast_lt.2 hlt
    have hx : (0 : ℝ) < ((st.score : ℝ)
        - ((compute_error (neighbor_sudoku pre st.grid r.nr) : ℤ) : ℝ))
          / st.temperature := div_pos (by linarith) hT
    have h1 : (1 : ℝ) < Real.exp (((st.score : ℝ)
        - ((compute_error (neighbor_sudoku pre st.grid r.nr) : ℤ) : ℝ))
          / st.temperature) := by
      have := Real.exp_lt_exp.2 hx
      rwa [Real.exp_zero] at this
    unfold uniform_1_0
    linarith
  · intro heq _
    rw [heq, sub_self, zero_div, Real.exp_zero]
    unfold uniform_1_0
    constructor
    · intro h
      linarith
    · intro h
      linarith

/-- C5 counterexample: a score-neutral move whose neighbor differs from the
working grid is rejected when the underlying unit uniform is 0 — the numpy
draw `uniform(1, 0, 1)` is then exactly 1, which is not below `p = 1` — so
"a score-neutral move (p = 1) is always accepted" fails on the code. -/
theorem C5_neutral_rejected_counterexample :
    compute_error (neighbor_sudoku pre0 g0 ⟨0, 0, 0⟩) = compute_error g0 ∧
    neighbor_sudoku pre0 g0 ⟨0, 0, 0⟩ 0 0 = 2 ∧ g0 0 0 = 1 ∧
    uniform_1_0 0 = 1 ∧
    inner_step pre0 ⟨g0, (compute_error g0 : ℤ), 1⟩ ⟨⟨0, 0, 0⟩, 0⟩
      = ⟨g0, (compute_error g0 : ℤ), 1⟩ := by
  have hns : compute_error (neighbor_sudoku pre0 g0 ⟨0, 0, 0⟩) = compute_error g0 := by
    decide
  refine ⟨hns, by decide, by decide, by norm_num [uniform_1_0], ?_⟩
  unfold inner_step
  rw [if_neg ?hrej]
  case hrej =>
    show ¬ uniform_1_0 (0 : ℝ) < Real.exp ((((compute_error g0 : ℤ) : ℝ)
      - ((compute_error (neighbor_sudoku pre0 g0 ⟨0, 0, 0⟩) : ℤ) : ℝ)) / (1 : ℝ))
    rw [hns, sub_self, zero_div, Real.exp_zero]
    norm_num [uniform_1_0]

theorem C5_acceptance_criterion_witness :
    (uniform_1_0 (1 / 2 : ℝ) <
      Real.exp (((((⟨g0, (compute_error g0 : ℤ), 1⟩ : SState).score : ℤ) : ℝ)
        - ((compute_error (neighbor_sudoku pre0
            (⟨g0, (compute_error g0 : ℤ), 1⟩ : SState).grid ⟨0, 0, 0⟩) : ℤ) : ℝ))
          / (⟨g0, (compute_error g0 : ℤ), 1⟩ : SState).temperature)
      ↔ 0 < (1 / 2 : ℝ)) :=
  (C5_acceptance_criterion pre0 ⟨g0, (compute_error g0 : ℤ), 1⟩
      ⟨⟨0, 0, 0⟩, 1 / 2⟩).2.2.2
    (by rw [show compute_error (neighbor_sudoku pre0 g0 ⟨0, 0, 0⟩)
          = compute_error g0 from by decide])
    (by norm_num)

theorem inner_loop_temp (pre : List (ℕ × ℕ)) :
    ∀ (k : ℕ) (st : SState) (rs : ℕ → Rand) (st' : SState),
      inner_loop pre st rs k = Sum.inl st' → st'.temperature = st.temperature := by
  intro k
  induction k with
  | zero =>
      intro st rs st' h
      cases h
      rfl
  | succ k ih =>
      intro st rs st' h
      have hunf : inner_loop pre st rs (k + 1)
          = if (inner_step pre st (rs 0)).score ≤ 0
            then Sum.inr (inner_step pre st (rs 0)).grid
            else inner_loop pre (inner_step pre st (rs 0)) (fun n => rs (n + 1)) k := rfl
      rw [hunf] at h
      by_cases hsc : (inner_step pre st (rs 0)).score ≤ 0
      · rw [if_pos hsc] at h
        cases h
      · rw [if_neg hsc] at h
        exact (ih _ _ _ h).trans (inner_step_temp pre st (rs 0))

/-- C6 (amended): the temperature starts at a population standard deviation,
hence is nonnegative — but not always positive: it is zero whenever the 10
initialization-walk scores coincide (see the counterexample).  It is mutated
only by the annealing loop: an inner-loop iteration never changes it, and
each epoch multiplies it by the cooling rate — a strict decrease whenever
the temperature is positive and the rate lies in (0, 1) — with a reheating
epoch additionally adding the constant 2 after the multiplication. -/
theorem C6_temperature_schedule :
    (∀ (puzzle : Grid) (rate : ℝ) (o : Oracles),
      0 ≤ (mkSolver puzzle rate o).2.temperature) ∧
    (∀ (pre : List (ℕ × ℕ)) (st : SState) (r : Rand),
      (inner_step pre st r).temperature = st.temperature) ∧
    (∀ (pre : List (ℕ × ℕ)) (limit : ℕ) (rate : ℝ) (st : SState) (reheats : ℕ)
        (rs : ℕ → Rand) (st' : SState) (rh' : ℕ),
      epoch pre limit rate st reheats rs = Sum.inl (st', rh') →
      (st'.temperature = st.temperature * rate ∨
        st'.temperature = st.temperature * rate + 2) ∧
      (0 ≤ st.temperature → 0 ≤ rate → 0 ≤ st'.temperature) ∧
      (0 < st.temperature → 0 < rate → rate < 1 →
        st'.temperature = st.temperature * rate →
        st'.temperature < st.temperature)) := by
  refine ⟨?_, inner_step_temp, ?_⟩
  · intro puzzle rate o
    exact Real.sqrt_nonneg _
  · intro pre limit rate st reheats rs st' rh' h
    rcases hil : inner_loop pre st rs limit with st1 | g1
    · have htmp : st1.temperature = st.temperature := inner_loop_temp pre limit st rs st1 hil
      rw [epoch_inl_eq pre limit rate st st1 reheats rs hil] at h
      have hkey : st'.temperature = st.temperature * rate ∨
          st'.temperature = st.temperature * rate + 2 := by
        by_cases hgt : (if st1.score ≥ st.score then reheats + 1 else 0) > 80
        · rw [if_pos hgt] at h
          cases h
          right
          show st1.temperature * rate + 2 = st.temperature * rate + 2
          rw [htmp]
        · rw [if_neg hgt] at h
          cases h
          left
          show st1.temperature * rate = st.temperature * rate
          rw [htmp]
      refine ⟨hkey, ?_, ?_⟩
      · intro hT hr
        rcases hkey with hk | hk <;> rw [hk]
        · exact mul_nonneg hT hr
        · have := mul_nonneg hT hr
          linarith
      · intro hT hr hr1 heq
        rw [heq]
        exact mul_lt_of_lt_one_right hT hr1
    · rw [epoch_inr_eq pre limit rate st reheats rs g1 hil] at h
      cases h

/-- C6 counterexample: on a fully pre-filled puzzle every neighbor move of
the initialization walk is a no-op, the 10 recorded scores coincide, their
standard deviation is 0, and so the solver's temperature is 0, not positive. -/
theorem C6_temperature_zero_counterexample :
    (mkSolver demoGrid 0.99 demoO).2.temperature = 0 := by
  have h0 : compute_error demoGrid = 0 := by decide
  have hno : neighbor_sudoku (pre_filled_indexes demoGrid) demoGrid ⟨0, 0, 0⟩
      = demoGrid := rfl
  have hwalk : ∀ k, walk_grid (pre_filled_indexes demoGrid) demoNR demoGrid k
      = demoGrid := by
    intro k
    induction k with
    | zero => rfl
    | succ k ih =>
        show neighbor_sudoku (pre_filled_indexes demoGrid)
          (walk_grid (pre_filled_indexes demoGrid) demoNR demoGrid k) (demoNR k) = _
        rw [ih]
        exact hno
  show npstd ((init_walk (pre_filled_indexes demoGrid) demoNR 10
      (random_matrix demoGrid demoSh,
       (compute_error (random_matrix demoGrid demoSh) : ℤ))).1.map
        (fun (s : ℕ) => (s : ℝ))) = 0
  rw [init_walk_eq]
  have hrm : random_matrix demoGrid demoSh = demoGrid := rfl
  have hmap : (List.range 10).map (fun i => compute_error
      (walk_grid (pre_filled_indexes demoGrid) demoNR
        (random_matrix demoGrid demoSh, (compute_error (random_matrix demoGrid demoSh) : ℤ)).1
        (i + 1)))
      = List.replicate 10 0 := by
    have hz : ∀ i ∈ List.range 10, compute_error
        (walk_grid (pre_filled_indexes demoGrid) demoNR
          (random_matrix demoGrid demoSh,
            (compute_error (random_matrix demoGrid demoSh) : ℤ)).1 (i + 1))
        = (fun _ : ℕ => 0) i := by
      intro i _
      show compute_error
        (walk_grid (pre_filled_indexes demoGrid) demoNR demoGrid (i + 1)) = 0
      rw [hwalk]
      exact h0
    rw [List.map_congr_left hz, List.map_const', List.length_range]
  show npstd (((List.range 10).map (fun i => compute_error
      (walk_grid (pre_filled_indexes demoGrid) demoNR
        (random_matrix demoGrid demoSh,
          (compute_error (random_matrix demoGrid demoSh) : ℤ)).1 (i + 1)))).map
        (fun (s : ℕ) => (s : ℝ))) = 0
  rw [hmap]
  have hcoe : (List.replicate 10 (0 : ℕ)).map (fun (s : ℕ) => (s : ℝ))
      = List.replicate 10 (0 : ℝ) := by
    simp
  rw [hcoe]
  unfold npstd
  simp

theorem C6_temperature_schedule_witness :
    (inner_step pre0 ⟨g0, 5, 1⟩ ⟨⟨0, 0, 0⟩, 0⟩).temperature
        = (⟨g0, 5, (1 : ℝ)⟩ : SState).temperature ∧
    ((⟨g0, 5, (1 : ℝ) * (1 / 2)⟩ : SState).temperature
        = (⟨g0, 5, (1 : ℝ)⟩ : SState).temperature * (1 / 2) ∨
      (⟨g0, 5, (1 : ℝ) * (1 / 2)⟩ : SState).temperature
        = (⟨g0, 5, (1 : ℝ)⟩ : SState).temperature * (1 / 2) + 2) ∧
    (0 ≤ (⟨g0, 5, (1 : ℝ) * (1 / 2)⟩ : SState).temperature) ∧
    ((⟨g0, 5, (1 : ℝ) * (1 / 2)⟩ : SState).temperature
        < (⟨g0, 5, (1 : ℝ)⟩ : SState).temperature) :=
  have h := C6_temperature_schedule.2.2 pre0 0 (1 / 2) ⟨g0, 5, 1⟩ 0 (demoRand 0)
    ⟨g0, 5, 1 * (1 / 2)⟩ 1 rfl
  ⟨C6_temperature_schedule.2.1 pre0 ⟨g0, 5, 1⟩ ⟨⟨0, 0, 0⟩, 0⟩,
   h.1,
   h.2.1 (by norm_num : (0 : ℝ) ≤ 1) (by norm_num),
   h.2.2 (by norm_num : (0 : ℝ) < 1) (by norm_num) (by norm_num) rfl⟩

end Recuit
